import Mathlib

/-!
Verification development for the personal memory index and organization engine
(`UserMemoryStore` and the organization part of `advancedSuggestionService`).

The TypeScript source is shallowly embedded: JavaScript strings become `String`,
JS numbers holding epoch milliseconds become `Int`, fractional scores become
`Rat`, and the two transcendental helpers the engine calls (`Math.exp`,
`Math.log`) are abstracted as an oracle parameter so that every definition
stays executable; theorems that need facts about the real exponential take
them as hypotheses on the oracle (positivity), which the genuine functions
satisfy.  `Map`/`Set` values become insertion-ordered association lists and
duplicate-free lists, matching JS iteration order.  The stable JS
`Array.prototype.sort` is modelled by `List.insertionSort`.
-/

namespace OpenClue

/-! ### JavaScript string primitives -/

/-- A JS word character for the regexes `\w` / `\W` without the `u` flag:
ASCII letters, ASCII digits and underscore.  CJK and other non-ASCII
characters are NOT word characters for these regexes. -/
def jsWordChar (c : Char) : Bool := c.isAlpha || c.isDigit || c == '_'

/-- Maximal runs of characters satisfying `p` in a character list (the
accumulator holds the current run reversed). -/
def runsAux (p : Char → Bool) : List Char → List Char → List String
  | [], [] => []
  | [], cur => [String.mk cur.reverse]
  | c :: cs, cur =>
    if p c then runsAux p cs (c :: cur)
    else if cur.isEmpty then runsAux p cs []
    else String.mk cur.reverse :: runsAux p cs []

/-- Maximal runs of JS word characters in a string. -/
def wordRuns (s : String) : List String := runsAux jsWordChar s.data []

/-- `s.split(/\W+/)` in JavaScript: the word-character runs, plus an empty
piece at the front when the string is empty or starts with a separator, and
an empty piece at the back when it ends with a separator. -/
def jsSplitW (s : String) : List String :=
  let lead := if s.data.head?.elim true (fun c => !jsWordChar c) then [""] else []
  let trail :=
    match s.data.getLast? with
    | none => ([] : List String)
    | some c => if jsWordChar c then [] else [""]
  lead ++ wordRuns s ++ trail

/-- `text.split(/\W+/).filter(word => word.length > 1)` from the search index. -/
def wordTokens (s : String) : List String := (jsSplitW s).filter (fun w => 1 < w.length)

/-- `s.includes(sub)` in JavaScript.  Note that every string includes the
empty string. -/
def jsIncludes (s sub : String) : Bool :=
  (List.range (s.data.length + 1)).any
    (fun i => (s.data.drop i).take sub.data.length == sub.data)

/-- `s.toLowerCase()`: per-character lowering.  (`String.toLower` computes
the same string but its byte-position recursion is not kernel-reducible, so
the map is taken over the character list.) -/
def jsToLower (s : String) : String := String.mk (s.data.map Char.toLower)

/-- `s.trim()`: strip whitespace from both ends. -/
def jsTrim (s : String) : String :=
  String.mk (((s.data.dropWhile Char.isWhitespace).reverse.dropWhile
    Char.isWhitespace).reverse)

/-! ### Data model (`UserMemorySchema` in the source) -/

/-- The `type` enum of a `MemoryEntry`. -/
inductive MType
  | note
  | project
  | preference
  | patternKind
  | knowledge
deriving DecidableEq

/-- A `MemoryEntry` record (the fields the verified operations touch;
`associations` and `metadata` are never read by them). -/
structure Memory where
  id : String
  createdAt : Int
  updatedAt : Int
  type : MType
  title : String
  content : String
  tags : List String
  relevanceScore : Rat
  accessCount : Nat
  lastAccessed : Int
deriving DecidableEq

/-- A `UserActionEntry` (the fields pattern detection reads). -/
structure ActionEntry where
  id : String
  timestamp : Int
  applicationName : Option String
deriving DecidableEq

/-- A `BehaviorPattern`. -/
structure BehaviorPattern where
  id : String
  pattern : String
  frequency : Nat
  lastOccurred : Int
  triggers : List String
  outcomes : List String
  confidence : Rat
deriving DecidableEq

/-! ### The inverted search index

`Map<string, Set<string>>` becomes an insertion-ordered association list from
a key to a duplicate-free list of memory ids. -/

/-- Word index / tag index representation. -/
abbrev Index := List (String × List String)

/-- `map.get(w)` with a missing key read as the empty set. -/
def idxLookup : Index → String → List String
  | [], _ => []
  | e :: rest, w => if e.1 = w then e.2 else idxLookup rest w

/-- `set.add(x)` on a JS `Set` represented as a duplicate-free list in
first-insertion order. -/
def setAdd (l : List String) (x : String) : List String :=
  if x ∈ l then l else l ++ [x]

/-- Add `id` to the set stored under `w`, creating the entry at the end if
absent (as `addToSearchIndex` does for each token; a JS `Map` holds one
binding per key, updated in place). -/
def idxAdd : Index → String → String → Index
  | [], w, id => [(w, [id])]
  | e :: rest, w, id =>
    if e.1 = w then (e.1, setAdd e.2 id) :: rest else e :: idxAdd rest w id

/-- Remove `id` from the set stored under `w`, deleting the entry when the
set becomes empty (as `removeFromSearchIndex` does for each token). -/
def idxRemove : Index → String → String → Index
  | [], _, _ => []
  | e :: rest, w, id =>
    if e.1 = w then
      (if (e.2.erase id).isEmpty then rest else (e.1, e.2.erase id) :: rest)
    else e :: idxRemove rest w id

/-- The lower-cased `title + " " + content` a memory is word-indexed by. -/
def memText (m : Memory) : String := jsToLower (m.title ++ " " ++ m.content)

/-- The word tokens of a memory. -/
def memWords (m : Memory) : List String := wordTokens (memText m)

/-- The normalized (lower-cased) tags of a memory. -/
def memTags (m : Memory) : List String := m.tags.map jsToLower

/-- Fold `idxAdd` over a token list. -/
def addWordsToIndex (ws : List String) (id : String) (idx : Index) : Index :=
  ws.foldl (fun i w => idxAdd i w id) idx

/-- Fold `idxRemove` over a token list. -/
def removeWordsFromIndex (ws : List String) (id : String) (idx : Index) : Index :=
  ws.foldl (fun i w => idxRemove i w id) idx

/-- `addToSearchIndex(memory)`: word index and tag index updates. -/
def addToSearchIndex (m : Memory) (wi ti : Index) : Index × Index :=
  (addWordsToIndex (memWords m) m.id wi, addWordsToIndex (memTags m) m.id ti)

/-- `removeFromSearchIndex(memory)`. -/
def removeFromSearchIndex (m : Memory) (wi ti : Index) : Index × Index :=
  (removeWordsFromIndex (memWords m) m.id wi, removeWordsFromIndex (memTags m) m.id ti)

/-! ### Store state and `saveMemory` -/

/-- The `sortBy` filter values. -/
inductive SortBy
  | relevance
  | date
  | access
deriving DecidableEq

/-- The optional filter object of `searchMemories`. -/
structure Filters where
  type : Option (List MType) := none
  tags : Option (List String) := none
  dateRange : Option (Int × Int) := none
  minRelevance : Option Rat := none
  sortBy : Option SortBy := none
  useSemantic : Option Bool := none
deriving DecidableEq

/-- The serialized `(query, limit, filters)` cache key. -/
abbrev CacheKey := String × Nat × Option Filters

/-- A search-cache slot: the page that was returned and when it was stored. -/
structure CacheEntry where
  results : List Memory
  timestamp : Int
deriving DecidableEq

/-- The in-memory state of `UserMemoryStore` that the verified operations
read and write: the `longTermMemory` table, the two inverted indexes, the
result cache, and the `maxMemoryEntries` setting.  The in-place mutation of
record objects in the source is modelled by id-directed functional updates of
`memories`. -/
structure MemoryState where
  memories : List Memory
  wordIndex : Index
  tagIndex : Index
  searchCache : List (CacheKey × CacheEntry)
  maxMemoryEntries : Nat
deriving DecidableEq

/-- The fields a caller passes to `saveMemory`. -/
structure SaveFields where
  type : MType
  title : String
  content : String
  tags : List String
  relevanceScore : Rat
deriving DecidableEq

/-- The fresh record `saveMemory` builds (`accessCount = 0`, all timestamps
set to now; the generated uuid is passed in as `newId`). -/
def mkEntry (f : SaveFields) (newId : String) (now : Int) : Memory :=
  { id := newId
    createdAt := now
    updatedAt := now
    type := f.type
    title := f.title
    content := f.content
    tags := f.tags
    relevanceScore := f.relevanceScore
    accessCount := 0
    lastAccessed := now }

/-- The eviction key `relevanceScore * accessCount` used by the capacity
check in `saveMemory`. -/
def evictKey (m : Memory) : Rat := m.relevanceScore * (m.accessCount : Rat)

/-- The ascending comparator `a.relevanceScore*a.accessCount -
b.relevanceScore*b.accessCount` of the eviction sort. -/
def evictLe (a b : Memory) : Prop := evictKey a ≤ evictKey b

instance : DecidableRel evictLe := fun a b => inferInstanceAs (Decidable (evictKey a ≤ evictKey b))

instance : IsTotal Memory evictLe := ⟨fun a b => le_total (evictKey a) (evictKey b)⟩

instance : IsTrans Memory evictLe := ⟨fun _ _ _ hab hbc => le_trans hab hbc⟩

/-- `saveMemory`: append the fresh record, add it to both indexes, and if the
count now exceeds `maxMemoryEntries`, sort ascending by the eviction key,
splice off the lowest-ranked surplus and remove it from the indexes; finally
clear the result cache. -/
def saveMemory (f : SaveFields) (newId : String) (now : Int) (s : MemoryState) : MemoryState :=
  let e := mkEntry f newId now
  let ms := s.memories ++ [e]
  let added := addToSearchIndex e s.wordIndex s.tagIndex
  if s.maxMemoryEntries < ms.length then
    let sorted := ms.insertionSort evictLe
    let removed := sorted.take (ms.length - s.maxMemoryEntries)
    let kept := sorted.drop (ms.length - s.maxMemoryEntries)
    let cleaned := removed.foldl (fun (p : Index × Index) m => removeFromSearchIndex m p.1 p.2) added
    { memories := kept
      wordIndex := cleaned.1
      tagIndex := cleaned.2
      searchCache := []
      maxMemoryEntries := s.maxMemoryEntries }
  else
    { memories := ms
      wordIndex := added.1
      tagIndex := added.2
      searchCache := []
      maxMemoryEntries := s.maxMemoryEntries }

/-! ### `searchMemories` -/

/-- The two transcendental functions the ranking code calls.  `exp` stands
for JavaScript `Math.exp` and `log` for `Math.log`; theorems that depend on
analytic facts about them (the real exponential is everywhere positive)
take those facts as hypotheses. -/
structure MathOracle where
  exp : Rat → Rat
  log : Rat → Rat

/-- Days elapsed between `lastAccessed` and now:
`(Date.now() - lastAccessed) / (1000*60*60*24)`. -/
def daysSince (now lastAccessed : Int) : Rat :=
  ((now - lastAccessed : Int) : Rat) / (1000 * 60 * 60 * 24)

/-- The key the default (`relevance`) sort of `searchMemories` actually uses:
`relevanceScore * (1 + accessCount * 0.1) * Math.exp(-daysSince/30)`.
The base search score is not part of it. -/
def relSortKey (o : MathOracle) (now : Int) (m : Memory) : Rat :=
  m.relevanceScore * (1 + (m.accessCount : Rat) * (1 / 10)) *
    o.exp (-(daysSince now m.lastAccessed) / 30)

/-- Apply the optional filters (`type`, `tags`, `dateRange`, `minRelevance`)
in source order, each reducing the candidate list. -/
def applyFilters (fil : Option Filters) (ms : List Memory) : List Memory :=
  match fil with
  | none => ms
  | some f =>
    let ms1 := match f.type with
      | some ts => if ts.isEmpty then ms else ms.filter (fun m => m.type ∈ ts)
      | none => ms
    let ms2 := match f.tags with
      | some ts =>
        if ts.isEmpty then ms1 else
          ms1.filter (fun m =>
            ts.any (fun tag =>
              m.tags.any (fun mTag => jsIncludes (jsToLower mTag) (jsToLower tag))))
      | none => ms1
    let ms3 := match f.dateRange with
      | some r => ms2.filter (fun m => r.1 ≤ m.createdAt && m.createdAt ≤ r.2)
      | none => ms2
    match f.minRelevance with
    | some r => ms3.filter (fun m => r ≤ m.relevanceScore)
    | none => ms3

/-- `memoryMap.get(id)`: a JS `Map` built from key/value pairs keeps the
last binding for a duplicated key. -/
def mapGet (ms : List Memory) (id : String) : Option Memory :=
  ms.reverse.find? (fun m => m.id == id)

/-- The lexical base score of `performIndexedSearch`: `+3` per query token
contained in the lower-cased title, `+2` per token contained in the
lower-cased content, `+1` per token contained in each tag. -/
def lexScore (queryWords : List String) (m : Memory) : Nat :=
  queryWords.foldl
    (fun acc w =>
      (acc + (if jsIncludes (jsToLower m.title) w then 3 else 0) +
        (if jsIncludes (jsToLower m.content) w then 2 else 0)) +
        (m.tags.foldl (fun a tag => a + if jsIncludes (jsToLower tag) w then 1 else 0) 0))
    0

/-- `performIndexedSearch`: candidate ids from the word and tag indexes,
mapped through the filtered memories, scored lexically, zero scores dropped,
sorted by base score descending. -/
def performIndexedSearch (q : String) (ms : List Memory) (wi ti : Index) : List Memory :=
  let queryWords := wordTokens q
  let fromWords := queryWords.foldl (fun acc w => (idxLookup wi w).foldl setAdd acc) []
  let candidateIds := queryWords.foldl (fun acc w => (idxLookup ti w).foldl setAdd acc) fromWords
  let candidates := candidateIds.filterMap (mapGet ms)
  let scored := (candidates.map (fun m => (m, lexScore queryWords m))).filter
    (fun p => 0 < p.2)
  (scored.insertionSort (fun a b => b.2 ≤ a.2)).map (fun p => p.1)

/-- One document of `performSemanticSearch`:
`(title + " " + content + " " + tags.join(" ")).toLowerCase().split(/\W+/)`. -/
def semDoc (m : Memory) : List String :=
  jsSplitW (jsToLower (m.title ++ " " ++ m.content ++ " " ++ String.intercalate " " m.tags))

/-- Document frequency of a token over the documents. -/
def docFreq (docs : List (List String)) (w : String) : Nat :=
  docs.countP (fun d => w ∈ d)

/-- The TF-IDF score of `performSemanticSearch` for one document. -/
def tfidfScore (o : MathOracle) (queryWords : List String) (docs : List (List String))
    (doc : List String) : Rat :=
  queryWords.foldl
    (fun acc w =>
      let tf : Nat := doc.countP (fun x => x == w)
      let df : Nat := docFreq docs w
      let idf : Rat := if 0 < df then o.log ((docs.length : Rat) / (df : Rat)) else 0
      acc + (tf : Rat) * idf)
    0

/-- `performSemanticSearch`: score every filtered memory, drop zero scores,
sort by score descending. -/
def performSemanticSearch (o : MathOracle) (q : String) (ms : List Memory) : List Memory :=
  let docs := ms.map semDoc
  let queryWords := wordTokens q
  let scored := (ms.zip docs).map (fun p => (p.1, tfidfScore o queryWords docs p.2))
  let kept := scored.filter (fun p => 0 < p.2)
  (kept.insertionSort (fun a b => b.2 ≤ a.2)).map (fun p => p.1)

/-- `cleanExpiredCache`: drop entries strictly older than the 5-minute TTL. -/
def cleanCache (now : Int) (c : List (CacheKey × CacheEntry)) : List (CacheKey × CacheEntry) :=
  c.filter (fun e => !(300000 < now - e.2.timestamp))

/-- `searchCache.get(key)` (a JS `Map` holds one binding per key; `cacheSet`
below maintains that). -/
def cacheGet : List (CacheKey × CacheEntry) → CacheKey → Option CacheEntry
  | [], _ => none
  | e :: rest, k => if e.1 = k then some e.2 else cacheGet rest k

/-- `searchCache.set(key, entry)`: overwrite the binding or append it. -/
def cacheSet : List (CacheKey × CacheEntry) → CacheKey → CacheEntry →
    List (CacheKey × CacheEntry)
  | [], k, v => [(k, v)]
  | e :: rest, k, v => if e.1 = k then (k, v) :: rest else e :: cacheSet rest k v

/-- Descending order on `updatedAt` (the `sortBy: "date"` comparator). -/
def updatedAtGe (a b : Memory) : Prop := b.updatedAt ≤ a.updatedAt

/-- Descending order on `accessCount` (the `sortBy: "access"` comparator). -/
def accessCountGe (a b : Memory) : Prop := b.accessCount ≤ a.accessCount

/-- Descending order on the relevance sort key (the default comparator). -/
def relKeyGe (o : MathOracle) (now : Int) (a b : Memory) : Prop :=
  relSortKey o now b ≤ relSortKey o now a

instance : DecidableRel updatedAtGe :=
  fun a b => inferInstanceAs (Decidable (b.updatedAt ≤ a.updatedAt))

instance : DecidableRel accessCountGe :=
  fun a b => inferInstanceAs (Decidable (b.accessCount ≤ a.accessCount))

instance (o : MathOracle) (now : Int) : DecidableRel (relKeyGe o now) :=
  fun a b => inferInstanceAs (Decidable (relSortKey o now b ≤ relSortKey o now a))

instance : IsTotal Memory updatedAtGe := ⟨fun a b => le_total b.updatedAt a.updatedAt⟩

instance : IsTrans Memory updatedAtGe := ⟨fun _ _ _ hab hbc => le_trans hbc hab⟩

instance : IsTotal Memory accessCountGe := ⟨fun a b => le_total b.accessCount a.accessCount⟩

instance : IsTrans Memory accessCountGe := ⟨fun _ _ _ hab hbc => le_trans hbc hab⟩

instance (o : MathOracle) (now : Int) : IsTotal Memory (relKeyGe o now) :=
  ⟨fun a b => le_total (relSortKey o now b) (relSortKey o now a)⟩

instance (o : MathOracle) (now : Int) : IsTrans Memory (relKeyGe o now) :=
  ⟨fun _ _ _ hab hbc => le_trans hbc hab⟩

/-- The descending sorts of the final step of `searchMemories`. -/
def sortResults (o : MathOracle) (now : Int) (sb : SortBy) (rs : List Memory) : List Memory :=
  match sb with
  | SortBy.date => rs.insertionSort updatedAtGe
  | SortBy.access => rs.insertionSort accessCountGe
  | SortBy.relevance => rs.insertionSort (relKeyGe o now)

/-- The access-statistics bump applied to every record of a returned page. -/
def bumpAccess (now : Int) (m : Memory) : Memory :=
  { m with accessCount := m.accessCount + 1, lastAccessed := now }

/-- The resolved `sortBy` of a call: `filters?.sortBy || "relevance"`. -/
def sortByOf (fil : Option Filters) : SortBy := (fil.bind Filters.sortBy).getD SortBy.relevance

/-- The resolved `useSemantic` of a call (a missing flag is falsy). -/
def useSemanticOf (fil : Option Filters) : Bool := (fil.bind Filters.useSemantic).getD false

/-- The unsorted result list of a cache-missing call: all filtered records
for an empty query, otherwise the semantic or indexed search over the
filtered records. -/
def rawResults (o : MathOracle) (q : String) (fil : Option Filters) (s : MemoryState) :
    List Memory :=
  let queryLower := jsTrim (jsToLower q)
  let filtered := applyFilters fil s.memories
  if queryLower = "" then filtered
  else if useSemanticOf fil then performSemanticSearch o queryLower filtered
  else performIndexedSearch queryLower filtered s.wordIndex s.tagIndex

/-- `searchMemories(query, limit, filters)` at time `now`: returns the page
and the successor state.  A fresh-enough cached page for the same serialized
arguments is returned as is; otherwise the engine filters, scores, sorts,
slices, bumps the access statistics of the page records, and caches the
page.  The bump mutates only the transient record copies obtained from the
store's `get` (the source never calls `set("longTermMemory", ...)` here), so
it is visible in the returned page and in the cached page objects, while the
stored memories are unchanged. -/
def searchMemories (o : MathOracle) (q : String) (limit : Nat) (fil : Option Filters)
    (now : Int) (s : MemoryState) : List Memory × MemoryState :=
  let cache1 := cleanCache now s.searchCache
  let key : CacheKey := (q, limit, fil)
  let hit : Option (List Memory) :=
    match cacheGet cache1 key with
    | some e => if now - e.timestamp < 300000 then some e.results else none
    | none => none
  match hit with
  | some page => (page, { s with searchCache := cache1 })
  | none =>
    let sorted := sortResults o now (sortByOf fil) (rawResults o q fil s)
    let page := (sorted.take limit).map (bumpAccess now)
    let cache2 := cacheSet cache1 key { results := page, timestamp := now }
    (page, { s with searchCache := cache2 })

/-- `buildSearchIndex` (the `rebuildIndex()` recovery path): clear both
indexes and re-add every stored memory. -/
def buildSearchIndex (s : MemoryState) : MemoryState :=
  let rebuilt := s.memories.foldl (fun (p : Index × Index) m => addToSearchIndex m p.1 p.2) ([], [])
  { s with wordIndex := rebuilt.1, tagIndex := rebuilt.2 }

/-! ### Pattern detection (`detectPatterns`) -/

/-- `history.slice(-100)`. -/
def lastN (n : Nat) (l : List ActionEntry) : List ActionEntry := l.drop (l.length - n)

/-- `new Date(timestamp).getHours()`, taken at UTC (the time-zone offset is
irrelevant to the verified properties, which never relate slots of different
runs to wall-clock hours). -/
def hourOf (t : Int) : Int := (t / 3600000) % 24

/-- The slot label `` `${hour}:00-${hour+1}:00` ``. -/
def timeSlotStr (h : Int) : String := toString h ++ ":00-" ++ toString (h + 1) ++ ":00"

/-- The pattern id `` `time-app-${timeSlot}-${app}` ``. -/
def timeAppId (h : Int) (app : String) : String := "time-app-" ++ timeSlotStr h ++ "-" ++ app

/-- Append `app` to the bucket of slot `h` (insertion-ordered record). -/
def groupAdd : List (Int × List String) → Int → String → List (Int × List String)
  | [], h, app => [(h, [app])]
  | e :: rest, h, app =>
    if e.1 = h then (e.1, e.2 ++ [app]) :: rest else e :: groupAdd rest h app

/-- The `timePatterns` record: hourly slots mapped to the application names
of the slot's actions.  An action with a missing or empty (falsy)
`applicationName` is not bucketed at all. -/
def slotGroups (actions : List ActionEntry) : List (Int × List String) :=
  actions.foldl
    (fun g a =>
      match a.applicationName with
      | some n => if n = "" then g else groupAdd g (hourOf a.timestamp) n
      | none => g)
    []

/-- Occurrence counts in first-insertion order (a JS `Map` tally). -/
def countAdd : List (String × Nat) → String → List (String × Nat)
  | [], x => [(x, 1)]
  | e :: rest, x => if e.1 = x then (e.1, e.2 + 1) :: rest else e :: countAdd rest x

/-- Tally a list of strings. -/
def tally (l : List String) : List (String × Nat) := l.foldl countAdd []

/-- `getMostFrequent`: the first item whose count strictly exceeds every
earlier maximum; `null` on an empty list. -/
def mostFrequent (l : List String) : Option String :=
  ((tally l).foldl
    (fun best e =>
      match best with
      | none => some e
      | some b => if b.2 < e.2 then some e else best)
    none).map (fun e => e.1)

/-- `getFrequencyRate`. -/
def freqRate (l : List String) (x : String) : Rat :=
  if l.isEmpty then 0 else ((l.countP (fun i => i == x) : Nat) : Rat) / (l.length : Rat)

/-- In-place mutation of the first pattern with the given id
(`patterns.find(p => p.id === patternId)` followed by field assignments). -/
def updFirst (ps : List BehaviorPattern) (pid : String)
    (f : BehaviorPattern → BehaviorPattern) : List BehaviorPattern :=
  match ps with
  | [] => []
  | p :: rest => if p.id = pid then f p :: rest else p :: updFirst rest pid f

/-- Repeat-detection reinforcement of a time-slot pattern: `frequency++`,
`lastOccurred = now`, `confidence = min(confidence * 1.1, 1)`. -/
def reinforce (now : Int) (p : BehaviorPattern) : BehaviorPattern :=
  { p with frequency := p.frequency + 1, lastOccurred := now,
           confidence := min (p.confidence * (11 / 10)) 1 }

/-- The freshly created time-slot pattern (`confidence: 0.5`, `frequency: 1`). -/
def freshTimePattern (h : Int) (app : String) (now : Int) : BehaviorPattern :=
  { id := timeAppId h app
    pattern := timeSlotStr h ++ "に" ++ app ++ "を使用する傾向"
    frequency := 1
    lastOccurred := now
    triggers := [timeSlotStr h]
    outcomes := [app]
    confidence := 1 / 2 }

/-- Process one slot bucket: if the most frequent application accounts for
more than half of the slot's bucketed actions, upsert its pattern. -/
def upsertTimeSlot (now : Int) (ps : List BehaviorPattern) (e : Int × List String) :
    List BehaviorPattern :=
  match mostFrequent e.2 with
  | none => ps
  | some app =>
    if 1 / 2 < freqRate e.2 app then
      if (ps.find? (fun p => p.id == timeAppId e.1 app)).isSome then
        updFirst ps (timeAppId e.1 app) (reinforce now)
      else ps ++ [freshTimePattern e.1 app now]
    else ps

/-- The time-slot mining half of `detectPatterns`. -/
def detectTimePatterns (recent : List ActionEntry) (ps : List BehaviorPattern) (now : Int) :
    List BehaviorPattern :=
  (slotGroups recent).foldl (upsertTimeSlot now) ps

/-- Sliding windows of length 3 over the recent actions. -/
def windows3 : List ActionEntry → List (List ActionEntry)
  | [] => []
  | a :: rest => if 3 ≤ (a :: rest).length then ((a :: rest).take 3) :: windows3 rest else []

/-- The window's sequence key: application names (missing name read as `""`)
joined with `">"`. -/
def seqKey (w : List ActionEntry) : String :=
  String.intercalate ">" (w.map (fun a => a.applicationName.getD ""))

/-- The pattern id `` `app-seq-${seq}` ``. -/
def seqId (k : String) : String := "app-seq-" ++ k

/-- The `sequenceCounts` record.  The source guards each window with
`if (seq.includes("")) continue;` which was meant to skip windows containing
a blank application name; it is modelled verbatim with `jsIncludes`. -/
def seqCounts (recent : List ActionEntry) : List (String × Nat) :=
  (windows3 recent).foldl
    (fun c w =>
      let seq := seqKey w
      if jsIncludes seq "" then c else countAdd c seq)
    []

/-- Repeat-detection reinforcement of a sequence pattern: `frequency` grows
by the observed repeat count. -/
def reinforceBy (c : Nat) (now : Int) (p : BehaviorPattern) : BehaviorPattern :=
  { p with frequency := p.frequency + c, lastOccurred := now,
           confidence := min (p.confidence * (11 / 10)) 1 }

/-- The freshly created sequence pattern. -/
def freshSeqPattern (k : String) (c : Nat) (now : Int) : BehaviorPattern :=
  { id := seqId k
    pattern := "アプリ利用シーケンス: " ++ k
    frequency := c
    lastOccurred := now
    triggers := k.splitOn ">"
    outcomes := []
    confidence := 1 / 2 }

/-- Process one sequence count: upsert when it occurred more than once. -/
def upsertSeq (now : Int) (ps : List BehaviorPattern) (e : String × Nat) :
    List BehaviorPattern :=
  if 1 < e.2 then
    if (ps.find? (fun p => p.id == seqId e.1)).isSome then
      updFirst ps (seqId e.1) (reinforceBy e.2 now)
    else ps ++ [freshSeqPattern e.1 e.2 now]
  else ps

/-- The sequence mining half of `detectPatterns`. -/
def detectSeqPatterns (recent : List ActionEntry) (ps : List BehaviorPattern) (now : Int) :
    List BehaviorPattern :=
  (seqCounts recent).foldl (upsertSeq now) ps

/-- `detectPatterns`: time-slot mining then sequence mining over the most
recent 100 actions. -/
def detectPatterns (history : List ActionEntry) (ps : List BehaviorPattern) (now : Int) :
    List BehaviorPattern :=
  let recent := lastN 100 history
  detectSeqPatterns recent (detectTimePatterns recent ps now) now

/-! ### Text similarity and duplicate detection (`advancedSuggestionService`) -/

/-- A character kept by `tokenize`'s sanitizing regex
`[^\w\s぀-ゟ゠-ヿ一-龯]` (word characters,
whitespace, hiragana, katakana, CJK ideographs). -/
def keepChar (c : Char) : Bool :=
  jsWordChar c || c.isWhitespace ||
    (0x3040 ≤ c.toNat && c.toNat ≤ 0x309F) ||
    (0x30A0 ≤ c.toNat && c.toNat ≤ 0x30FF) ||
    (0x4E00 ≤ c.toNat && c.toNat ≤ 0x9FAF)

/-- Replace every dropped character with a space.  (As with `jsToLower`,
the per-character map is taken over the character list so that the kernel
can evaluate it.) -/
def sanitize (s : String) : String :=
  String.mk (s.data.map (fun c => if keepChar c then c else ' '))

/-- `tokenize`: sanitize, split on whitespace runs, keep tokens of
length > 1. -/
def tokenize (s : String) : List String :=
  (runsAux (fun c => !c.isWhitespace) (sanitize s).data []).filter (fun w => 1 < w.length)

/-- The Levenshtein distance, by the standard recurrence (the source fills
the usual dynamic-programming matrix, which computes the same function). -/
def levenshtein : List Char → List Char → Nat
  | [], ys => ys.length
  | x :: xs, [] => (x :: xs).length
  | x :: xs, y :: ys =>
    if x = y then levenshtein xs ys
    else 1 + min (levenshtein xs ys) (min (levenshtein (x :: xs) ys) (levenshtein xs (y :: ys)))
termination_by xs ys => xs.length + ys.length

/-- Relative term frequency of `w` in `words`. -/
noncomputable def relTf (words : List String) (w : String) : ℝ :=
  ((words.countP (fun x => x == w) : Nat) : ℝ) / ((words.length : Nat) : ℝ)

/-- `calculateTextSimilarity`: the weighted blend of Jaccard similarity of
token sets (0.4), cosine similarity of relative term-frequency vectors over
the union vocabulary (0.4), and one minus the normalized Levenshtein
distance of the raw strings (0.2); zero when either side has no tokens. -/
noncomputable def textSimilarity (t1 t2 : String) : ℝ :=
  let words1 := tokenize (jsToLower t1)
  let words2 := tokenize (jsToLower t2)
  if words1.length = 0 ∨ words2.length = 0 then 0
  else
    let set1 := words1.dedup
    let set2 := words2.dedup
    let inter := set1.filter (fun x => x ∈ set2)
    let union := (set1 ++ set2).dedup
    let jaccard : ℝ := ((inter.length : Nat) : ℝ) / ((union.length : Nat) : ℝ)
    let dot := (union.map (fun w => relTf words1 w * relTf words2 w)).sum
    let mag1 := Real.sqrt ((union.map (fun w => relTf words1 w * relTf words1 w)).sum)
    let mag2 := Real.sqrt ((union.map (fun w => relTf words2 w * relTf words2 w)).sum)
    let cosine : ℝ := if mag1 = 0 ∨ mag2 = 0 then 0 else dot / (mag1 * mag2)
    let maxLength := max t1.length t2.length
    let normLev : ℝ :=
      if 0 < maxLength then 1 - ((levenshtein t1.data t2.data : Nat) : ℝ) / ((maxLength : Nat) : ℝ)
      else 1
    jaccard * 0.4 + cosine * 0.4 + normLev * 0.2

/-- `suggestedAction` of a `DuplicateMemoryPair`. -/
inductive MergeAction
  | merge
  | keepBoth
  | archiveOlder
deriving DecidableEq

/-- `determineMergeAction`. -/
noncomputable def determineMergeAction (m1 m2 : Memory) (sim : ℝ) : MergeAction :=
  if 0.95 < sim then MergeAction.merge
  else if jsIncludes m1.content m2.content || jsIncludes m2.content m1.content then
    MergeAction.merge
  else if 0 < m2.createdAt - m1.createdAt ∧
      (m1.content.length : Rat) * (3 / 2) < (m2.content.length : Rat) then
    MergeAction.archiveOlder
  else if 0.8 < sim then MergeAction.keepBoth
  else MergeAction.merge

/-- A reported `DuplicateMemoryPair` (without the optional merged content,
which no verified property reads). -/
structure DupPair where
  memory1 : String
  memory2 : String
  similarity : ℝ
  suggestedAction : MergeAction

/-- The ordered pairs `(memories[i], memories[j])`, `i < j`, scanned by the
duplicate loop. -/
def memoryPairs : List Memory → List (Memory × Memory)
  | [] => []
  | m :: rest => rest.map (fun m2 => (m, m2)) ++ memoryPairs rest

/-- `findDuplicateMemories`: keep every pair whose content similarity
exceeds 0.75, attach the suggested action, sort by similarity descending. -/
noncomputable def findDuplicateMemories (ms : List Memory) : List DupPair :=
  let dups := (memoryPairs ms).filterMap
    (fun p =>
      let sim := textSimilarity p.1.content p.2.content
      if 0.75 < sim then
        some { memory1 := p.1.id, memory2 := p.2.id, similarity := sim,
               suggestedAction := determineMergeAction p.1 p.2 sim }
      else none)
  dups.insertionSort (fun a b => b.similarity ≤ a.similarity)

/-! ### Invariants and concrete scenario used by the verification -/

/-- The keys of an index, in order. -/
def idxKeys (idx : Index) : List String := idx.map Prod.fst

/-- A lawful index holds at most one entry per key (JS `Map` semantics). -/
def KeysNodup (idx : Index) : Prop := (idxKeys idx).Nodup

/-- A lawful index holds duplicate-free id sets (JS `Set` semantics). -/
def BucketsNodup (idx : Index) : Prop := ∀ w, (idxLookup idx w).Nodup

/-- Index soundness: the index holds an id under a token exactly when a
stored memory with that id yields that token (`get` is `memWords` for the
word index and `memTags` for the tag index) — no stale entries, no missing
entries. -/
def IndexFor (get : Memory → List String) (ms : List Memory) (idx : Index) : Prop :=
  ∀ w a, a ∈ idxLookup idx w ↔ ∃ m ∈ ms, m.id = a ∧ w ∈ get m

/-- Well-formedness of a store state: unique record ids, lawful index
structures, and both indexes sound for the stored memories. -/
def WellFormed (s : MemoryState) : Prop :=
  (s.memories.map Memory.id).Nodup ∧
  KeysNodup s.wordIndex ∧ BucketsNodup s.wordIndex ∧
  IndexFor memWords s.memories s.wordIndex ∧
  KeysNodup s.tagIndex ∧ BucketsNodup s.tagIndex ∧
  IndexFor memTags s.memories s.tagIndex

/-- The oracle used to evaluate concrete scenarios in which the
transcendental factors are irrelevant (all compared records share the same
`lastAccessed`, so the decay factors agree; any positive constant stands in
for them). -/
def unitOracle : MathOracle := { exp := fun _ => 1, log := fun _ => 0 }

/-- An empty engine with the default `maxMemoryEntries = 1000`. -/
def emptyState : MemoryState :=
  { memories := [], wordIndex := [], tagIndex := [], searchCache := [], maxMemoryEntries := 1000 }

/-- The composite key the stored record behind an id carries (used to state
ordering laws about a returned page, whose records are bumped copies of the
stored ones: the ranking compared the stored records). -/
def storedKey (s : MemoryState) (key : Memory → Rat) (id : String) : Rat :=
  match s.memories.find? (fun m => m.id == id) with
  | some m => key m
  | none => 0

/-- Descending order of two ids under the stored composite key. -/
def idKeyGe (s : MemoryState) (key : Memory → Rat) (a b : String) : Prop :=
  storedKey s key b ≤ storedKey s key a

instance (s : MemoryState) (key : Memory → Rat) : DecidableRel (idKeyGe s key) :=
  fun a b => inferInstanceAs (Decidable (storedKey s key b ≤ storedKey s key a))

/-- The composite score the specification claims for lexical mode: the
lexical base score multiplied by `relevanceScore * (1 + accessCount*0.1)`
and the recency decay. -/
def claimKeyLex (o : MathOracle) (now : Int) (q : String) (m : Memory) : Rat :=
  ((lexScore (wordTokens q) m : Nat) : Rat) * relSortKey o now m

/-- The composite score the specification claims for semantic mode: the
TF-IDF base score multiplied by the same factors. -/
def claimKeySem (o : MathOracle) (now : Int) (q : String) (fil : Option Filters)
    (s : MemoryState) (m : Memory) : Rat :=
  tfidfScore o (wordTokens q) ((applyFilters fil s.memories).map semDoc) (semDoc m) *
    relSortKey o now m

/-- Claim C1 as stated: for a non-empty query answered afresh (no cache
hit), when `sortBy` resolves to `relevance` the returned order is descending
in the claimed composite score (base score included, lexical or TF-IDF
according to the mode); `sortBy = date` orders by `updatedAt` descending and
`sortBy = access` by `accessCount` descending. -/
def ClaimC1 : Prop :=
  ∀ (o : MathOracle), (∀ x, 0 < o.exp x) →
    ∀ (q : String) (limit : Nat) (fil : Option Filters) (now : Int) (s : MemoryState),
      cacheGet (cleanCache now s.searchCache) (q, limit, fil) = none →
      jsTrim (jsToLower q) ≠ "" →
      ((sortByOf fil = SortBy.relevance ∧ useSemanticOf fil = false →
          ((searchMemories o q limit fil now s).1.map Memory.id).Sorted
            (idKeyGe s (claimKeyLex o now (jsTrim (jsToLower q))))) ∧
        (sortByOf fil = SortBy.relevance ∧ useSemanticOf fil = true →
          ((searchMemories o q limit fil now s).1.map Memory.id).Sorted
            (idKeyGe s (claimKeySem o now (jsTrim (jsToLower q)) fil s))) ∧
        (sortByOf fil = SortBy.date →
          (searchMemories o q limit fil now s).1.Sorted updatedAtGe) ∧
        (sortByOf fil = SortBy.access →
          (searchMemories o q limit fil now s).1.Sorted accessCountGe))

/-- The spec-claimed word tokenizer of C6: like the source tokenizer but
with Unicode word characters — the hiragana, katakana and CJK-ideograph
ranges included — preserved as token characters. -/
def specWordChar (c : Char) : Bool :=
  jsWordChar c ||
    (0x3040 ≤ c.toNat && c.toNat ≤ 0x309F) ||
    (0x30A0 ≤ c.toNat && c.toNat ≤ 0x30FF) ||
    (0x4E00 ≤ c.toNat && c.toNat ≤ 0x9FAF)

/-- Tokens of the spec-claimed C6 tokenizer (length > 1, non-word characters
as separators, CJK preserved). -/
def specWordTokens (s : String) : List String :=
  (runsAux specWordChar s.data []).filter (fun w => 1 < w.length)

/-- Claim C6 as stated: a memory is indexed under every token of the
CJK-preserving tokenization of its lower-cased `title + " " + content`, and
is retrievable by those tokens. -/
def ClaimC6 : Prop :=
  ∀ (m : Memory) (wi ti : Index) (w : String),
    w ∈ specWordTokens (memText m) →
    m.id ∈ idxLookup (addToSearchIndex m wi ti).1 w

/-- Claim C7 as stated: any two stored memories with identical `content`
are reported by `findDuplicateMemories` with similarity at least 0.95 and
suggested action `merge`. -/
def ClaimC7 : Prop :=
  ∀ (ms : List Memory) (m1 m2 : Memory),
    (m1, m2) ∈ memoryPairs ms →
    m1.content = m2.content →
    ∃ d ∈ findDuplicateMemories ms,
      d.memory1 = m1.id ∧ d.memory2 = m2.id ∧
      (0.95 : ℝ) ≤ d.similarity ∧ d.suggestedAction = MergeAction.merge

/-! ### Concrete fixtures used by counterexamples and witnesses -/

/-- `saveMemory` fields of the C1/C5 scenario, record A: its title and
content both contain "budget" (lexical base score 5), low caller relevance. -/
def fixA : SaveFields :=
  { type := MType.note, title := "budget plan", content := "budget",
    tags := [], relevanceScore := 1 / 2 }

/-- Record B of the scenario: only its content contains "budget" (lexical
base score 2), maximal caller relevance. -/
def fixB : SaveFields :=
  { type := MType.note, title := "misc", content := "budget",
    tags := [], relevanceScore := 1 }

/-- The two-record store of the C1/C5 scenario, built by two saves at time
0; both records share `lastAccessed = 0`, so their decay factors agree. -/
def fixStore : MemoryState := saveMemory fixB "B" 0 (saveMemory fixA "A" 0 emptyState)

/-- The stored record created by saving `fixA` (lexical base score 5 for
query "budget", code relevance key 1/2). -/
def entryA : Memory := mkEntry fixA "A" 0

/-- The stored record created by saving `fixB` (lexical base score 2, code
relevance key 1). -/
def entryB : Memory := mkEntry fixB "B" 0

/-- Filters whose date range is inverted (`start > end`), the C9 scenario. -/
def badRangeFil : Filters :=
  { type := none, tags := none, dateRange := some (5, 3), minRelevance := none,
    sortBy := none, useSemantic := none }

/-- An empty store whose capacity is zero (exercises eviction on the very
first save). -/
def cap0State : MemoryState :=
  { memories := [], wordIndex := [], tagIndex := [], searchCache := [], maxMemoryEntries := 0 }

/-- A stored record with a strictly positive eviction key. -/
def mOld : Memory :=
  { id := "X", createdAt := 0, updatedAt := 0, type := MType.note,
    title := "old note", content := "content words", tags := ["Keep"],
    relevanceScore := 1 / 2, accessCount := 1, lastAccessed := 0 }

/-- A store at capacity 1 holding `mOld` (the C4 scenario). -/
def cap1State : MemoryState :=
  { memories := [mOld]
    wordIndex := (addToSearchIndex mOld [] []).1
    tagIndex := (addToSearchIndex mOld [] []).2
    searchCache := []
    maxMemoryEntries := 1 }

/-- Generic fields for a fresh save. -/
def freshFields : SaveFields :=
  { type := MType.note, title := "hello world", content := "fresh note",
    tags := ["Tag"], relevanceScore := 1 }

/-- The C2 action history: application names A,B,C,A,B,C — the window
sequence `A>B>C` occurs twice. -/
def seqHistory : List ActionEntry :=
  [⟨"1", 0, some "A"⟩, ⟨"2", 1000, some "B"⟩, ⟨"3", 2000, some "C"⟩,
   ⟨"4", 3000, some "A"⟩, ⟨"5", 4000, some "B"⟩, ⟨"6", 5000, some "C"⟩]

/-- The C8 witness history: three actions with the same application inside
one hourly slot. -/
def chromeHistory : List ActionEntry :=
  [⟨"1", 0, some "Chrome"⟩, ⟨"2", 60000, some "Chrome"⟩, ⟨"3", 120000, some "Chrome"⟩]

/-- A memory whose title and content are purely CJK text (the C6 scenario). -/
def cjkMem : Memory :=
  { id := "J", createdAt := 0, updatedAt := 0, type := MType.note,
    title := "日本語", content := "メモ帳", tags := [], relevanceScore := 1,
    accessCount := 0, lastAccessed := 0 }

/-- A single-record store holding the CJK memory with its (empty) built
index. -/
def cjkState : MemoryState :=
  { memories := [cjkMem]
    wordIndex := (addToSearchIndex cjkMem [] []).1
    tagIndex := (addToSearchIndex cjkMem [] []).2
    searchCache := []
    maxMemoryEntries := 1000 }

/-- Two memories with identical token-free content (the C7 counterexample:
`tokenize "a"` is empty, so their similarity is 0). -/
def dupP : Memory :=
  { id := "P", createdAt := 0, updatedAt := 0, type := MType.note,
    title := "p", content := "a", tags := [], relevanceScore := 1,
    accessCount := 0, lastAccessed := 0 }

/-- Second record with the same token-free content. -/
def dupQ : Memory :=
  { id := "Q", createdAt := 1, updatedAt := 1, type := MType.note,
    title := "q", content := "a", tags := [], relevanceScore := 1,
    accessCount := 0, lastAccessed := 1 }

/-- Two memories with identical tokenizable content (the C7 witness). -/
def dupR : Memory :=
  { id := "R", createdAt := 0, updatedAt := 0, type := MType.note,
    title := "r", content := "hello world", tags := [], relevanceScore := 1,
    accessCount := 0, lastAccessed := 0 }

/-- Second record with the same tokenizable content. -/
def dupS : Memory :=
  { id := "S", createdAt := 1, updatedAt := 1, type := MType.note,
    title := "s", content := "hello world", tags := [], relevanceScore := 1,
    accessCount := 0, lastAccessed := 1 }

/-! ### Lemmas about the index primitives -/

theorem mem_setAdd {l : List String} {x a : String} :
    a ∈ setAdd l x ↔ a ∈ l ∨ a = x := by
  unfold setAdd
  split
  · next hx =>
      constructor
      · exact Or.inl
      · rintro (ha | rfl)
        · exact ha
        · exact hx
  · simp

theorem nodup_setAdd {l : List String} {x : String} (h : l.Nodup) : (setAdd l x).Nodup := by
  unfold setAdd
  split
  · exact h
  · next hx => simpa [List.nodup_append] using ⟨h, hx⟩

theorem keysNodup_cons {e : String × List String} {rest : Index} (h : KeysNodup (e :: rest)) :
    e.1 ∉ idxKeys rest ∧ KeysNodup rest := by
  simpa [KeysNodup, idxKeys, List.nodup_cons] using h

theorem idxLookup_eq_nil_of_not_mem_keys {idx : Index} {w : String}
    (h : w ∉ idxKeys idx) : idxLookup idx w = [] := by
  induction idx with
  | nil => rfl
  | cons e rest ih =>
    simp only [idxKeys, List.map_cons, List.mem_cons, not_or] at h
    have he : ¬e.1 = w := fun he => h.1 he.symm
    simp only [idxLookup]
    rw [if_neg he]
    exact ih (by simpa [idxKeys] using h.2)

theorem idxLookup_idxAdd (idx : Index) (w id w' : String) :
    idxLookup (idxAdd idx w id) w' =
      if w = w' then setAdd (idxLookup idx w') id else idxLookup idx w' := by
  induction idx with
  | nil =>
    by_cases hw : w = w'
    · subst hw
      simp [idxAdd, idxLookup, setAdd]
    · simp [idxAdd, idxLookup, hw]
  | cons e rest ih =>
    by_cases he : e.1 = w
    · subst he
      by_cases hw : e.1 = w'
      · simp [idxAdd, idxLookup, hw]
      · simp [idxAdd, idxLookup, hw]
    · by_cases he' : e.1 = w'
      · subst he'
        have hw : ¬w = e.1 := fun hww => he hww.symm
        simp [idxAdd, idxLookup, he, hw]
      · simp [idxAdd, idxLookup, he, he', ih]

theorem idxKeys_cons (e : String × List String) (rest : Index) :
    idxKeys (e :: rest) = e.1 :: idxKeys rest := rfl

theorem idxKeys_idxAdd (idx : Index) (w id : String) :
    idxKeys (idxAdd idx w id) =
      if w ∈ idxKeys idx then idxKeys idx else idxKeys idx ++ [w] := by
  induction idx with
  | nil => simp [idxAdd, idxKeys]
  | cons e rest ih =>
    by_cases he : e.1 = w
    · subst he
      simp [idxAdd, idxKeys]
    · have hne : ¬w = e.1 := fun hww => he hww.symm
      have hstep : idxAdd (e :: rest) w id = e :: idxAdd rest w id := by
        simp [idxAdd, he]
      rw [hstep, idxKeys_cons, idxKeys_cons, ih]
      by_cases hm : w ∈ idxKeys rest
      · rw [if_pos hm, if_pos (List.mem_cons.mpr (Or.inr hm))]
      · rw [if_neg hm, if_neg (by simp [List.mem_cons, hne, hm]), List.cons_append]

theorem keysNodup_idxAdd {idx : Index} {w id : String} (h : KeysNodup idx) :
    KeysNodup (idxAdd idx w id) := by
  unfold KeysNodup
  rw [idxKeys_idxAdd]
  split
  · exact h
  · next hm => simpa [List.nodup_append] using ⟨h, hm⟩

theorem idxKeys_idxRemove_sublist (idx : Index) (w id : String) :
    (idxKeys (idxRemove idx w id)).Sublist (idxKeys idx) := by
  induction idx with
  | nil => simp [idxRemove, idxKeys]
  | cons e rest ih =>
    by_cases he : e.1 = w
    · simp only [idxRemove, if_pos he]
      split
      · simpa [idxKeys] using List.sublist_cons_self e.1 (List.map Prod.fst rest)
      · simp only [idxKeys, List.map_cons]
        exact List.Sublist.cons₂ e.1 (List.Sublist.refl _)
    · simp only [idxRemove, if_neg he, idxKeys, List.map_cons]
      exact List.Sublist.cons₂ e.1 ih

theorem keysNodup_idxRemove {idx : Index} {w id : String} (h : KeysNodup idx) :
    KeysNodup (idxRemove idx w id) :=
  List.Nodup.sublist (idxKeys_idxRemove_sublist idx w id) h

theorem idxLookup_idxRemove {w id w' : String} :
    ∀ {idx : Index}, KeysNodup idx →
      idxLookup (idxRemove idx w id) w' =
        if w = w' then (idxLookup idx w').erase id else idxLookup idx w'
  | [], _ => by by_cases hw : w = w' <;> simp [idxRemove, idxLookup, hw]
  | e :: rest, h => by
    have h' := keysNodup_cons h
    by_cases he : e.1 = w
    · subst he
      have hrest : idxLookup rest e.1 = [] := idxLookup_eq_nil_of_not_mem_keys h'.1
      by_cases hemp : (e.2.erase id).isEmpty
      · have hz : e.2.erase id = [] := by simpa [List.isEmpty_iff] using hemp
        by_cases hw : e.1 = w'
        · subst hw
          simp [idxRemove, hemp, idxLookup, hrest, hz]
        · simp [idxRemove, hemp, hz, idxLookup, hw]
      · by_cases hw : e.1 = w'
        · subst hw
          simp [idxRemove, hemp, idxLookup]
        · simp [idxRemove, hemp, idxLookup, hw]
    · by_cases hw : w = w'
      · subst hw
        simp [idxRemove, idxLookup, he, idxLookup_idxRemove h'.2]
      · by_cases he' : e.1 = w'
        · subst he'
          simp [idxRemove, idxLookup, he, hw]
        · simp [idxRemove, idxLookup, he, he', hw, idxLookup_idxRemove h'.2]

theorem bucketsNodup_idxAdd {idx : Index} {w id : String} (h : BucketsNodup idx) :
    BucketsNodup (idxAdd idx w id) := by
  intro w'
  rw [idxLookup_idxAdd]
  split
  · exact nodup_setAdd (h w')
  · exact h w'

theorem bucketsNodup_idxRemove {idx : Index} {w id : String} (hk : KeysNodup idx)
    (h : BucketsNodup idx) : BucketsNodup (idxRemove idx w id) := by
  intro w'
  rw [idxLookup_idxRemove hk]
  split
  · exact List.Nodup.erase id (h w')
  · exact h w'


theorem mem_idxLookup_addWords {ws : List String} {id : String} :
    ∀ {idx : Index} {w a : String},
      a ∈ idxLookup (addWordsToIndex ws id idx) w ↔
        a ∈ idxLookup idx w ∨ (a = id ∧ w ∈ ws) := by
  induction ws with
  | nil =>
    intro idx w a
    simp [addWordsToIndex]
  | cons w0 ws ih =>
    intro idx w a
    have step : addWordsToIndex (w0 :: ws) id idx
        = addWordsToIndex ws id (idxAdd idx w0 id) := rfl
    rw [step, ih, idxLookup_idxAdd]
    by_cases hw : w0 = w
    · subst hw
      simp [mem_setAdd, List.mem_cons] <;> tauto
    · have hw2 : ¬w = w0 := fun hww => hw hww.symm
      simp [hw, List.mem_cons, hw2] <;> tauto

theorem keysNodup_addWords {ws : List String} {id : String} :
    ∀ {idx : Index}, KeysNodup idx → KeysNodup (addWordsToIndex ws id idx) := by
  induction ws with
  | nil => intro idx h; exact h
  | cons w0 ws ih => intro idx h; exact ih (keysNodup_idxAdd h)

theorem bucketsNodup_addWords {ws : List String} {id : String} :
    ∀ {idx : Index}, BucketsNodup idx → BucketsNodup (addWordsToIndex ws id idx) := by
  induction ws with
  | nil => intro idx h; exact h
  | cons w0 ws ih => intro idx h; exact ih (bucketsNodup_idxAdd h)

theorem keysNodup_removeWords {ws : List String} {id : String} :
    ∀ {idx : Index}, KeysNodup idx → KeysNodup (removeWordsFromIndex ws id idx) := by
  induction ws with
  | nil => intro idx h; exact h
  | cons w0 ws ih => intro idx h; exact ih (keysNodup_idxRemove h)

theorem bucketsNodup_removeWords {ws : List String} {id : String} :
    ∀ {idx : Index}, KeysNodup idx → BucketsNodup idx →
      BucketsNodup (removeWordsFromIndex ws id idx) := by
  induction ws with
  | nil => intro idx _ h; exact h
  | cons w0 ws ih =>
    intro idx hk h
    exact ih (keysNodup_idxRemove hk) (bucketsNodup_idxRemove hk h)

theorem mem_idxLookup_removeWords {ws : List String} {id : String} :
    ∀ {idx : Index}, KeysNodup idx → BucketsNodup idx → ∀ {w a : String},
      (a ∈ idxLookup (removeWordsFromIndex ws id idx) w ↔
        a ∈ idxLookup idx w ∧ ¬(a = id ∧ w ∈ ws)) := by
  induction ws with
  | nil =>
    intro idx _ _ w a
    simp [removeWordsFromIndex]
  | cons w0 ws ih =>
    intro idx hk hb w a
    have step : removeWordsFromIndex (w0 :: ws) id idx
        = removeWordsFromIndex ws id (idxRemove idx w0 id) := rfl
    rw [step, ih (keysNodup_idxRemove hk) (bucketsNodup_idxRemove hk hb),
        idxLookup_idxRemove hk]
    by_cases hw : w0 = w
    · subst hw
      rw [if_pos rfl, List.Nodup.mem_erase_iff (hb w0)]
      simp [List.mem_cons] <;> tauto
    · have hw2 : ¬w = w0 := fun hww => hw hww.symm
      rw [if_neg hw]
      simp [List.mem_cons, hw2] <;> tauto

/-- Splitting the per-evicted-record index cleanup into its two components. -/
theorem removeFold_eq (rs : List Memory) :
    ∀ (wi ti : Index),
      rs.foldl (fun (p : Index × Index) m => removeFromSearchIndex m p.1 p.2) (wi, ti)
        = (rs.foldl (fun i m => removeWordsFromIndex (memWords m) m.id i) wi,
           rs.foldl (fun i m => removeWordsFromIndex (memTags m) m.id i) ti) := by
  induction rs with
  | nil => intro wi ti; rfl
  | cons r rs ih => intro wi ti; exact ih _ _

theorem keysNodup_removeMems {get : Memory → List String} :
    ∀ {rs : List Memory} {idx : Index}, KeysNodup idx →
      KeysNodup (rs.foldl (fun i m => removeWordsFromIndex (get m) m.id i) idx) := by
  intro rs
  induction rs with
  | nil => intro idx h; exact h
  | cons r rs ih => intro idx h; exact ih (keysNodup_removeWords h)

theorem bucketsNodup_removeMems {get : Memory → List String} :
    ∀ {rs : List Memory} {idx : Index}, KeysNodup idx → BucketsNodup idx →
      BucketsNodup (rs.foldl (fun i m => removeWordsFromIndex (get m) m.id i) idx) := by
  intro rs
  induction rs with
  | nil => intro idx _ h; exact h
  | cons r rs ih =>
    intro idx hk h
    exact ih (keysNodup_removeWords hk) (bucketsNodup_removeWords hk h)

theorem mem_idxLookup_removeMems {get : Memory → List String} :
    ∀ {rs : List Memory} {idx : Index}, KeysNodup idx → BucketsNodup idx → ∀ {w a : String},
      (a ∈ idxLookup (rs.foldl (fun i m => removeWordsFromIndex (get m) m.id i) idx) w ↔
        a ∈ idxLookup idx w ∧ ¬∃ r ∈ rs, r.id = a ∧ w ∈ get r) := by
  intro rs
  induction rs with
  | nil =>
    intro idx _ _ w a
    simp
  | cons r rs ih =>
    intro idx hk hb w a
    have step : (r :: rs).foldl (fun i m => removeWordsFromIndex (get m) m.id i) idx
        = rs.foldl (fun i m => removeWordsFromIndex (get m) m.id i)
            (removeWordsFromIndex (get r) r.id idx) := rfl
    rw [step, ih (keysNodup_removeWords hk) (bucketsNodup_removeWords hk hb),
        mem_idxLookup_removeWords hk hb]
    constructor
    · rintro ⟨⟨ha, hn1⟩, hn2⟩
      refine ⟨ha, ?_⟩
      rintro ⟨x, hx, hid, hwx⟩
      rcases List.mem_cons.mp hx with rfl | hx2
      · exact hn1 ⟨hid.symm, hwx⟩
      · exact hn2 ⟨x, hx2, hid, hwx⟩
    · rintro ⟨ha, hn⟩
      refine ⟨⟨ha, ?_⟩, ?_⟩
      · rintro ⟨rfl, hwx⟩
        exact hn ⟨r, List.mem_cons_self r rs, rfl, hwx⟩
      · rintro ⟨x, hx, hid, hwx⟩
        exact hn ⟨x, List.mem_cons.mpr (Or.inr hx), hid, hwx⟩


/-! ### `saveMemory`: capacity, eviction and index consistency -/

/-- `saveMemory` unfolded, with the index cleanup split per index. -/
theorem saveMemory_eq (f : SaveFields) (newId : String) (now : Int) (s : MemoryState) :
    saveMemory f newId now s =
      (let e := mkEntry f newId now
       let pushed := s.memories ++ [e]
       let wi1 := addWordsToIndex (memWords e) e.id s.wordIndex
       let ti1 := addWordsToIndex (memTags e) e.id s.tagIndex
       if s.maxMemoryEntries < pushed.length then
         let sorted := pushed.insertionSort evictLe
         let k := pushed.length - s.maxMemoryEntries
         { memories := sorted.drop k
           wordIndex := (sorted.take k).foldl
             (fun i m => removeWordsFromIndex (memWords m) m.id i) wi1
           tagIndex := (sorted.take k).foldl
             (fun i m => removeWordsFromIndex (memTags m) m.id i) ti1
           searchCache := []
           maxMemoryEntries := s.maxMemoryEntries }
       else
         { memories := pushed, wordIndex := wi1, tagIndex := ti1,
           searchCache := [], maxMemoryEntries := s.maxMemoryEntries }) := by
  unfold saveMemory addToSearchIndex
  by_cases hc : s.maxMemoryEntries < (s.memories ++ [mkEntry f newId now]).length
  · simp only [if_pos hc, removeFold_eq]
  · simp only [if_neg hc]

/-- The store never exceeds `maxMemoryEntries` after a save. -/
theorem saveMemory_length_le (f : SaveFields) (newId : String) (now : Int) (s : MemoryState) :
    (saveMemory f newId now s).memories.length ≤ s.maxMemoryEntries := by
  rw [saveMemory_eq]
  by_cases hc : s.maxMemoryEntries < (s.memories ++ [mkEntry f newId now]).length
  · simp only [if_pos hc, List.length_drop, List.length_insertionSort]
    omega
  · simp only [if_neg hc]
    omega

/-- Every record that was present when the capacity check ran but is absent
afterwards has an eviction key no larger than that of every survivor. -/
theorem saveMemory_evicted_minimal (f : SaveFields) (newId : String) (now : Int)
    (s : MemoryState) :
    ∀ r, r ∈ s.memories ++ [mkEntry f newId now] →
      r ∉ (saveMemory f newId now s).memories →
      ∀ m ∈ (saveMemory f newId now s).memories, evictKey r ≤ evictKey m := by
  rw [saveMemory_eq]
  simp only []
  by_cases hc : s.maxMemoryEntries < (s.memories ++ [mkEntry f newId now]).length
  · simp only [if_pos hc]
    intro r hrin hrout m hm
    set pushed := s.memories ++ [mkEntry f newId now] with hpushed
    set k := pushed.length - s.maxMemoryEntries with hk
    have hsorted : List.Sorted evictLe (pushed.insertionSort evictLe) :=
      List.sorted_insertionSort evictLe pushed
    have hsplit := List.take_append_drop k (pushed.insertionSort evictLe)
    have hpw : List.Pairwise evictLe
        ((pushed.insertionSort evictLe).take k ++ (pushed.insertionSort evictLe).drop k) := by
      rw [hsplit]; exact hsorted
    have hcross := (List.pairwise_append.mp hpw).2.2
    have hr : r ∈ (pushed.insertionSort evictLe).take k := by
      have hrs : r ∈ pushed.insertionSort evictLe :=
        (List.mem_insertionSort evictLe).mpr hrin
      rw [← hsplit] at hrs
      rcases List.mem_append.mp hrs with h | h
      · exact h
      · exact absurd h hrout
    exact hcross r hr m hm
  · simp only [if_neg hc]
    intro r hrin hrout m _
    exact absurd hrin hrout

/-- The eviction branch and the plain branch both preserve the
well-formedness invariant: the evicted records are scrubbed from both
indexes in the same operation, and the fresh record is indexed. -/
theorem saveMemory_wellFormed (f : SaveFields) (newId : String) (now : Int) (s : MemoryState)
    (hwf : WellFormed s) (hfresh : ∀ m ∈ s.memories, m.id ≠ newId) :
    WellFormed (saveMemory f newId now s) := by
  obtain ⟨hids, hkw, hbw, hfw, hkt, hbt, hft⟩ := hwf
  set e := mkEntry f newId now with he
  have heid : e.id = newId := rfl
  set pushed := s.memories ++ [e] with hpushed
  have hids1 : (pushed.map Memory.id).Nodup := by
    rw [hpushed, List.map_append, List.nodup_append]
    refine ⟨hids, by simp, ?_⟩
    intro a ha hb
    simp only [List.map_cons, List.map_nil, List.mem_singleton] at hb
    rcases List.mem_map.mp ha with ⟨m, hm, rfl⟩
    exact hfresh m hm (hb.trans heid)
  have haddmem : ∀ (get : Memory → List String) (idx : Index),
      IndexFor get s.memories idx →
      IndexFor get pushed (addWordsToIndex (get e) e.id idx) := by
    intro get idx hfor w a
    rw [mem_idxLookup_addWords, hfor w a]
    constructor
    · rintro (⟨m, hm, hid, hw⟩ | ⟨rfl, hw⟩)
      · exact ⟨m, List.mem_append_left _ hm, hid, hw⟩
      · exact ⟨e, List.mem_append_right _ (List.mem_singleton_self e), rfl, hw⟩
    · rintro ⟨m, hm, hid, hw⟩
      rcases List.mem_append.mp hm with hm | hm
      · exact Or.inl ⟨m, hm, hid, hw⟩
      · rw [List.mem_singleton] at hm
        subst hm
        exact Or.inr ⟨hid.symm, hw⟩
  have hkw1 : KeysNodup (addWordsToIndex (memWords e) e.id s.wordIndex) :=
    keysNodup_addWords hkw
  have hbw1 : BucketsNodup (addWordsToIndex (memWords e) e.id s.wordIndex) :=
    bucketsNodup_addWords hbw
  have hkt1 : KeysNodup (addWordsToIndex (memTags e) e.id s.tagIndex) :=
    keysNodup_addWords hkt
  have hbt1 : BucketsNodup (addWordsToIndex (memTags e) e.id s.tagIndex) :=
    bucketsNodup_addWords hbt
  rw [saveMemory_eq]
  by_cases hc : s.maxMemoryEntries < pushed.length
  · simp only [← hpushed, ← he, if_pos hc]
    set sorted := pushed.insertionSort evictLe with hsorted
    set k := pushed.length - s.maxMemoryEntries with hk
    have hperm : (sorted.take k ++ sorted.drop k).Perm pushed := by
      rw [List.take_append_drop]
      exact List.perm_insertionSort evictLe pushed
    have hidsort : ((sorted.take k ++ sorted.drop k).map Memory.id).Nodup :=
      ((hperm.map Memory.id).nodup_iff).mpr hids1
    have hdisj := by
      rw [List.map_append, List.nodup_append] at hidsort
      exact hidsort
    have hkept : ∀ (get : Memory → List String) (idx : Index),
        IndexFor get pushed idx → KeysNodup idx → BucketsNodup idx →
        IndexFor get (sorted.drop k)
          ((sorted.take k).foldl (fun i m => removeWordsFromIndex (get m) m.id i) idx) := by
      intro get idx hfor hks hbs w a
      rw [mem_idxLookup_removeMems hks hbs, hfor w a]
      constructor
      · rintro ⟨⟨m, hm, hid, hw⟩, hn⟩
        have hm2 : m ∈ sorted.take k ++ sorted.drop k := hperm.mem_iff.mpr hm
        rcases List.mem_append.mp hm2 with hm2 | hm2
        · exact absurd ⟨m, hm2, hid, hw⟩ hn
        · exact ⟨m, hm2, hid, hw⟩
      · rintro ⟨m, hm, hid, hw⟩
        refine ⟨⟨m, hperm.mem_iff.mp (List.mem_append_right _ hm), hid, hw⟩, ?_⟩
        rintro ⟨r, hr, hrid, hrw⟩
        have : r.id ∈ (sorted.take k).map Memory.id := List.mem_map_of_mem Memory.id hr
        have hmem2 : m.id ∈ (sorted.drop k).map Memory.id := List.mem_map_of_mem Memory.id hm
        exact hdisj.2.2 (by rwa [hrid, ← hid] at this) hmem2
    refine ⟨?_, ?_, ?_, ?_, ?_, ?_, ?_⟩
    · have : ((sorted.drop k).map Memory.id).Nodup := by
        rw [List.map_append, List.nodup_append] at hidsort
        exact hidsort.2.1
      exact this
    · exact keysNodup_removeMems hkw1
    · exact bucketsNodup_removeMems hkw1 hbw1
    · exact hkept memWords _ (haddmem memWords s.wordIndex hfw) hkw1 hbw1
    · exact keysNodup_removeMems hkt1
    · exact bucketsNodup_removeMems hkt1 hbt1
    · exact hkept memTags _ (haddmem memTags s.tagIndex hft) hkt1 hbt1
  · simp only [← hpushed, ← he, if_neg hc]
    exact ⟨hids1, hkw1, hbw1, haddmem memWords s.wordIndex hfw,
      hkt1, hbt1, haddmem memTags s.tagIndex hft⟩


/-- **C3** — After every `saveMemory` call the store holds at most
`maxMemoryEntries` records; when the cap would be exceeded, records with the
lowest eviction key `relevanceScore * accessCount` are removed first (every
evicted record keys no higher than every survivor), and every evicted record
is scrubbed from the word index and the tag index within the same operation:
the well-formedness invariant — both indexes sound for the stored records,
with no stale entries — is preserved. -/
theorem saveMemory_capacity_eviction_index_consistency
    (f : SaveFields) (newId : String) (now : Int) (s : MemoryState)
    (hwf : WellFormed s) (hfresh : ∀ m ∈ s.memories, m.id ≠ newId) :
    (saveMemory f newId now s).memories.length ≤ s.maxMemoryEntries ∧
      (∀ r, r ∈ s.memories ++ [mkEntry f newId now] →
        r ∉ (saveMemory f newId now s).memories →
        ∀ m ∈ (saveMemory f newId now s).memories, evictKey r ≤ evictKey m) ∧
      WellFormed (saveMemory f newId now s) :=
  ⟨saveMemory_length_le f newId now s,
   saveMemory_evicted_minimal f newId now s,
   saveMemory_wellFormed f newId now s hwf hfresh⟩

/-- Witness for C3: a concrete save into the zero-capacity store satisfies
the hypotheses and hence the conclusions. -/
theorem saveMemory_capacity_eviction_index_consistency_witness :
    WellFormed cap0State ∧ (∀ m ∈ cap0State.memories, m.id ≠ "N") ∧
      ((saveMemory freshFields "N" 0 cap0State).memories.length ≤ cap0State.maxMemoryEntries ∧
        (∀ r, r ∈ cap0State.memories ++ [mkEntry freshFields "N" 0] →
          r ∉ (saveMemory freshFields "N" 0 cap0State).memories →
          ∀ m ∈ (saveMemory freshFields "N" 0 cap0State).memories, evictKey r ≤ evictKey m) ∧
        WellFormed (saveMemory freshFields "N" 0 cap0State)) := by
  have hwf0 : WellFormed cap0State := by
    simp [WellFormed, cap0State, KeysNodup, BucketsNodup, IndexFor, idxKeys, idxLookup]
  have hfr : ∀ m ∈ cap0State.memories, m.id ≠ "N" := by
    simp [cap0State]
  exact ⟨hwf0, hfr,
    saveMemory_capacity_eviction_index_consistency freshFields "N" 0 cap0State hwf0 hfr⟩

/-- **C4** — When the store is exactly at capacity and every existing record
has a strictly positive eviction key, the record `saveMemory` just created
(whose `accessCount` is initialized to 0, giving it eviction key 0, the
strict minimum) is itself evicted by the capacity check: no record with the
fresh id survives the save. -/
theorem saveMemory_fresh_record_evicted
    (f : SaveFields) (newId : String) (now : Int) (s : MemoryState)
    (hlen : s.memories.length = s.maxMemoryEntries)
    (hpos : ∀ m ∈ s.memories, 0 < evictKey m)
    (hfresh : ∀ m ∈ s.memories, m.id ≠ newId) :
    evictKey (mkEntry f newId now) = 0 ∧
      ∀ m ∈ (saveMemory f newId now s).memories, m.id ≠ newId := by
  have hkey0 : evictKey (mkEntry f newId now) = 0 := by
    simp [evictKey, mkEntry]
  refine ⟨hkey0, ?_⟩
  rw [saveMemory_eq]
  have hc : s.maxMemoryEntries < (s.memories ++ [mkEntry f newId now]).length := by
    simp only [List.length_append, List.length_cons, List.length_nil]
    omega
  simp only [if_pos hc]
  set e := mkEntry f newId now with he
  set pushed := s.memories ++ [e] with hp
  set sorted := pushed.insertionSort evictLe with hs
  have hperm : sorted.Perm pushed := List.perm_insertionSort evictLe pushed
  have hsorted : List.Sorted evictLe sorted := List.sorted_insertionSort evictLe pushed
  have hlen1 : pushed.length - s.maxMemoryEntries = 1 := by
    rw [hp]
    simp only [List.length_append, List.length_cons, List.length_nil]
    omega
  rw [hlen1]
  have hlen2 : sorted.length = s.memories.length + 1 := by
    rw [hs, List.length_insertionSort, hp]
    simp
  obtain ⟨h0, t, ht⟩ : ∃ h0 t, sorted = h0 :: t := by
    cases hsort : sorted with
    | nil => rw [hsort] at hlen2; simp at hlen2
    | cons a l => exact ⟨a, l, rfl⟩
  have h0e : h0 = e := by
    by_contra hne
    have h0mem : h0 ∈ pushed := hperm.mem_iff.mp (ht ▸ List.mem_cons_self h0 t)
    have h0old : h0 ∈ s.memories := by
      rcases List.mem_append.mp h0mem with h | h
      · exact h
      · rw [List.mem_singleton] at h
        exact absurd h hne
    have hepos : e ∈ sorted :=
      hperm.mem_iff.mpr (List.mem_append_right _ (List.mem_singleton_self e))
    have het : e ∈ t := by
      rw [ht] at hepos
      rcases List.mem_cons.mp hepos with h | h
      · exact absurd h.symm hne
      · exact h
    have hle : evictKey h0 ≤ evictKey e := by
      rw [ht] at hsorted
      exact (List.sorted_cons.mp hsorted).1 e het
    rw [hkey0] at hle
    exact absurd (lt_of_lt_of_le (hpos h0 h0old) hle) (lt_irrefl 0)
  have hcount : pushed.countP (fun m => m.id == newId) = 1 := by
    rw [hp, List.countP_append]
    have h1 : s.memories.countP (fun m => m.id == newId) = 0 := by
      rw [List.countP_eq_zero]
      intro m hm
      simpa using hfresh m hm
    have h2 : [e].countP (fun m => m.id == newId) = 1 := by
      simp [he, mkEntry]
    rw [h1, h2]
  have hcount2 : sorted.countP (fun m => m.id == newId) = 1 := by
    rw [hperm.countP_eq]
    exact hcount
  have hcountt : t.countP (fun m => m.id == newId) = 0 := by
    rw [ht, List.countP_cons] at hcount2
    have hph0 : (h0.id == newId) = true := by
      rw [h0e, he]
      simp [mkEntry]
    simp only [hph0, if_true] at hcount2
    omega
  rw [ht]
  intro m hm
  simp only [List.drop_succ_cons, List.drop_zero] at hm
  have := List.countP_eq_zero.mp hcountt m hm
  simpa using this

/-- Witness for C4: saving a fresh record into the full one-record store
whose sole record has a positive eviction key evicts the fresh record. -/
theorem saveMemory_fresh_record_evicted_witness :
    cap1State.memories.length = cap1State.maxMemoryEntries ∧
      (∀ m ∈ cap1State.memories, 0 < evictKey m) ∧
      (∀ m ∈ cap1State.memories, m.id ≠ "N") ∧
      (evictKey (mkEntry freshFields "N" 5) = 0 ∧
        ∀ m ∈ (saveMemory freshFields "N" 5 cap1State).memories, m.id ≠ "N") := by
  have hlen : cap1State.memories.length = cap1State.maxMemoryEntries := rfl
  have hpos : ∀ m ∈ cap1State.memories, 0 < evictKey m := by
    intro m hm
    simp only [cap1State, List.mem_singleton] at hm
    subst hm
    norm_num [evictKey, mOld]
  have hfr : ∀ m ∈ cap1State.memories, m.id ≠ "N" := by
    intro m hm
    simp only [cap1State, List.mem_singleton] at hm
    subst hm
    decide
  exact ⟨hlen, hpos, hfr,
    saveMemory_fresh_record_evicted freshFields "N" 5 cap1State hlen hpos hfr⟩


/-! ### Index rebuild (C10) -/

/-- **C10** — Rebuilding the search index is idempotent: for fixed store
contents, running the full rebuild twice in a row produces word-index and
tag-index contents identical to running it once (the rebuild clears both
indexes and reconstructs them purely from `memories`, which it does not
change). -/
theorem buildSearchIndex_idempotent (s : MemoryState) :
    buildSearchIndex (buildSearchIndex s) = buildSearchIndex s := rfl

/-! ### Sequence mining (C2) -/

/-- In JavaScript every string contains the empty string, so the guard
`if (seq.includes("")) continue;` fires on every window. -/
theorem jsIncludes_empty (s : String) : jsIncludes s "" = true := by
  unfold jsIncludes
  apply List.any_eq_true.mpr
  refine ⟨0, by simp, ?_⟩
  rfl

/-- Consequently the sequence tally is always empty. -/
theorem seqCounts_eq_nil (recent : List ActionEntry) : seqCounts recent = [] := by
  unfold seqCounts
  have h : ∀ (ws : List (List ActionEntry)) (acc : List (String × Nat)),
      ws.foldl
        (fun c w =>
          let seq := seqKey w
          if jsIncludes seq "" then c else countAdd c seq) acc = acc := by
    intro ws
    induction ws with
    | nil => intro acc; rfl
    | cons w ws ih => intro acc; simp [jsIncludes_empty, ih]
  exact h _ []

/-- Sequence mining never changes the pattern table. -/
theorem detectSeqPatterns_eq (recent : List ActionEntry) (ps : List BehaviorPattern)
    (now : Int) : detectSeqPatterns recent ps now = ps := by
  unfold detectSeqPatterns
  rw [seqCounts_eq_nil]
  rfl

/-- `detectPatterns` reduces to its time-slot half. -/
theorem detectPatterns_eq_time (history : List ActionEntry) (ps : List BehaviorPattern)
    (now : Int) :
    detectPatterns history ps now = detectTimePatterns (lastN 100 history) ps now := by
  unfold detectPatterns
  exact detectSeqPatterns_eq _ _ _

/-- A time-slot pattern id never equals a sequence pattern id (they start
with different characters). -/
theorem timeAppId_ne_seqId (h : Int) (app k : String) : timeAppId h app ≠ seqId k := by
  intro he
  have hd := congrArg (fun s => s.data.head?) he
  have h1 : (timeAppId h app).data.head? = some 't' := by
    have hx : (timeAppId h app).data =
        "time-app-".data ++ ((timeSlotStr h).data ++ ("-".data ++ app.data)) := by
      simp [timeAppId, String.data_append, List.append_assoc]
    rw [hx]
    rfl
  have h2 : (seqId k).data.head? = some 'a' := by
    have hx : (seqId k).data = "app-seq-".data ++ k.data := by
      simp [seqId, String.data_append]
    rw [hx]
    rfl
  simp only [h1, h2] at hd
  exact absurd (Option.some.inj hd) (by decide)

/-- Membership in `updFirst`: unchanged entries stay, and the touched entry
is the image of a previous entry with the targeted id. -/
theorem mem_updFirst {pid : String} {f : BehaviorPattern → BehaviorPattern} :
    ∀ {ps : List BehaviorPattern} {p : BehaviorPattern},
      p ∈ updFirst ps pid f → p ∈ ps ∨ ∃ q ∈ ps, q.id = pid ∧ p = f q
  | [], p, hp => Or.inl hp
  | q :: rest, p, hp => by
    by_cases hq : q.id = pid
    · rw [updFirst, if_pos hq] at hp
      rcases List.mem_cons.mp hp with rfl | hp2
      · exact Or.inr ⟨q, List.mem_cons_self q rest, hq, rfl⟩
      · exact Or.inl (List.mem_cons.mpr (Or.inr hp2))
    · rw [updFirst, if_neg hq] at hp
      rcases List.mem_cons.mp hp with rfl | hp2
      · exact Or.inl (List.mem_cons_self p rest)
      · rcases mem_updFirst hp2 with hin | ⟨r, hr, hrid, hrf⟩
        · exact Or.inl (List.mem_cons.mpr (Or.inr hin))
        · exact Or.inr ⟨r, List.mem_cons.mpr (Or.inr hr), hrid, hrf⟩

/-- Creation/update condition of time-slot mining: any pattern in the output
that was not in the input table belongs to a slot whose most frequent
application exceeds half of the slot actions. -/
theorem mem_foldl_upsertTimeSlot :
    ∀ (gs : List (Int × List String)) (now : Int) (ps : List BehaviorPattern)
      (p : BehaviorPattern),
      p ∈ gs.foldl (upsertTimeSlot now) ps →
      p ∈ ps ∨ ∃ hr app apps, (hr, apps) ∈ gs ∧ mostFrequent apps = some app ∧
        (1 : Rat) / 2 < freqRate apps app ∧ p.id = timeAppId hr app := by
  intro gs
  induction gs with
  | nil =>
    intro now ps p hp
    exact Or.inl hp
  | cons g gs ih =>
    intro now ps p hp
    have hp2 : p ∈ gs.foldl (upsertTimeSlot now) (upsertTimeSlot now ps g) := hp
    rcases ih now (upsertTimeSlot now ps g) p hp2 with h | ⟨hr, app, apps, hmem, hmf, hrate, hid⟩
    · unfold upsertTimeSlot at h
      cases hmf : mostFrequent g.2 with
      | none =>
        simp only [hmf] at h
        exact Or.inl h
      | some app =>
        simp only [hmf] at h
        by_cases hrate : (1 : Rat) / 2 < freqRate g.2 app
        · rw [if_pos hrate] at h
          by_cases hfind : (ps.find? (fun q => q.id == timeAppId g.1 app)).isSome
          · rw [if_pos hfind] at h
            rcases mem_updFirst h with hin | ⟨q, _, hqid, rfl⟩
            · exact Or.inl hin
            · refine Or.inr ⟨g.1, app, g.2, ?_, hmf, hrate, ?_⟩
              · exact List.mem_cons.mpr (Or.inl (Prod.mk.eta).symm)
              · simpa [reinforce] using hqid
          · rw [if_neg hfind] at h
            rcases List.mem_append.mp h with hin | hfr
            · exact Or.inl hin
            · rw [List.mem_singleton] at hfr
              subst hfr
              refine Or.inr ⟨g.1, app, g.2, ?_, hmf, hrate, rfl⟩
              exact List.mem_cons.mpr (Or.inl (Prod.mk.eta).symm)
        · rw [if_neg hrate] at h
          exact Or.inl h
    · exact Or.inr ⟨hr, app, apps, List.mem_cons.mpr (Or.inr hmem), hmf, hrate, hid⟩

/-- **C2** (code bug) — On the concrete history A,B,C,A,B,C the window
sequence `A>B>C` occurs twice and no window contains a blank application
name, so by the specification a `seq` pattern with frequency 2 should be
upserted; but the guard `seq.includes("")` is true for every string, so the
sequence tally stays empty and no pattern whose id is the `app-seq-` id of
`A>B>C` ever appears in the output table. -/
theorem detectPatterns_sequence_mining_never_fires :
    ((windows3 (lastN 100 seqHistory)).map seqKey).count "A>B>C" = 2 ∧
      (∀ w ∈ windows3 (lastN 100 seqHistory), ∀ a ∈ w, a.applicationName ≠ some "") ∧
      seqCounts (lastN 100 seqHistory) = [] ∧
      ∀ p ∈ detectPatterns seqHistory [] 9000, p.id ≠ seqId "A>B>C" := by
  refine ⟨by decide, by decide, seqCounts_eq_nil _, ?_⟩
  intro p hp
  rw [detectPatterns_eq_time] at hp
  rcases mem_foldl_upsertTimeSlot _ 9000 [] p hp with h | ⟨hr, app, _, _, _, _, hid⟩
  · exact absurd h (List.not_mem_nil p)
  · rw [hid]
    exact timeAppId_ne_seqId hr app _


/-! ### Time-slot mining (C8) -/

/-- `updFirst` over a list whose only match is the appended element. -/
theorem updFirst_append_singleton {pid : String} {f : BehaviorPattern → BehaviorPattern} :
    ∀ {l : List BehaviorPattern}, (∀ x ∈ l, x.id ≠ pid) → ∀ {q : BehaviorPattern}, q.id = pid →
      updFirst (l ++ [q]) pid f = l ++ [f q]
  | [], _, q, hq => by simp [updFirst, hq]
  | x :: rest, hl, q, hq => by
    have hx : ¬x.id = pid := hl x (List.mem_cons_self x rest)
    have hrest : ∀ y ∈ rest, y.id ≠ pid := fun y hy => hl y (List.mem_cons.mpr (Or.inr hy))
    have ih := @updFirst_append_singleton pid f rest hrest q hq
    calc updFirst ((x :: rest) ++ [q]) pid f
        = x :: updFirst (rest ++ [q]) pid f := by
          simp only [List.cons_append, updFirst, if_neg hx]
          rfl
      _ = x :: (rest ++ [f q]) := by rw [ih]
      _ = (x :: rest) ++ [f q] := by simp

/-- A slot holding three copies of the same application always passes the
majority test and upserts its pattern. -/
theorem upsertTimeSlot_single (now : Int) (ps : List BehaviorPattern) (h : Int) (A : String) :
    upsertTimeSlot now ps (h, [A, A, A]) =
      if (ps.find? (fun q => q.id == timeAppId h A)).isSome then
        updFirst ps (timeAppId h A) (reinforce now)
      else ps ++ [freshTimePattern h A now] := by
  have hmf : mostFrequent [A, A, A] = some A := by
    simp [mostFrequent, tally, countAdd]
  have hrate : (1 : Rat) / 2 < freqRate [A, A, A] A := by
    have hcount : List.countP (fun i => i == A) [A, A, A] = 3 := by simp
    simp only [freqRate, List.isEmpty_cons, List.length_cons, List.length_nil, hcount]
    norm_num
  unfold upsertTimeSlot
  simp only [hmf]
  rw [if_pos hrate]

/-- A detection run over a history whose slot grouping is a single
three-copy slot just upserts that slot's pattern. -/
theorem detectPatterns_single_slot (history : List ActionEntry) (ps : List BehaviorPattern)
    (now : Int) (h : Int) (A : String)
    (hgroups : slotGroups (lastN 100 history) = [(h, [A, A, A])]) :
    detectPatterns history ps now =
      if (ps.find? (fun q => q.id == timeAppId h A)).isSome then
        updFirst ps (timeAppId h A) (reinforce now)
      else ps ++ [freshTimePattern h A now] := by
  rw [detectPatterns_eq_time]
  unfold detectTimePatterns
  rw [hgroups]
  exact upsertTimeSlot_single now ps h A

/-- **C8** — Time-slot mining upserts a pattern only when the slot's most
frequent application accounts for more than half of the slot's actions
(first conjunct), and on the scenario of three same-application actions in
one hourly slot, three successive detector runs produce frequency 1, 2, 3
with confidence 0.5, 0.55, 0.605 — strictly increasing and never above 1
(remaining conjuncts). -/
theorem detectPatterns_time_slot_reinforcement
    (history : List ActionEntry) (ps0 : List BehaviorPattern) (h : Int) (A : String)
    (now1 now2 now3 : Int)
    (hgroups : slotGroups (lastN 100 history) = [(h, [A, A, A])])
    (hfresh : ∀ p ∈ ps0, p.id ≠ timeAppId h A) :
    (∀ (hist : List ActionEntry) (ps : List BehaviorPattern) (now : Int)
        (p : BehaviorPattern),
        p ∈ detectPatterns hist ps now →
        p ∈ ps ∨ ∃ hr app apps, (hr, apps) ∈ slotGroups (lastN 100 hist) ∧
          mostFrequent apps = some app ∧ (1 : Rat) / 2 < freqRate apps app ∧
          p.id = timeAppId hr app) ∧
    detectPatterns history ps0 now1 = ps0 ++ [freshTimePattern h A now1] ∧
    detectPatterns history (detectPatterns history ps0 now1) now2 =
      ps0 ++ [reinforce now2 (freshTimePattern h A now1)] ∧
    detectPatterns history
        (detectPatterns history (detectPatterns history ps0 now1) now2) now3 =
      ps0 ++ [reinforce now3 (reinforce now2 (freshTimePattern h A now1))] ∧
    (freshTimePattern h A now1).frequency = 1 ∧
    (reinforce now2 (freshTimePattern h A now1)).frequency = 2 ∧
    (reinforce now3 (reinforce now2 (freshTimePattern h A now1))).frequency = 3 ∧
    (freshTimePattern h A now1).confidence = 1 / 2 ∧
    (reinforce now2 (freshTimePattern h A now1)).confidence = 11 / 20 ∧
    (reinforce now3 (reinforce now2 (freshTimePattern h A now1))).confidence = 121 / 200 ∧
    (1 : Rat) / 2 < 11 / 20 ∧ (11 : Rat) / 20 < 121 / 200 ∧ (121 : Rat) / 200 ≤ 1 := by
  have hgeneral : ∀ (hist : List ActionEntry) (ps : List BehaviorPattern) (now : Int)
      (p : BehaviorPattern),
      p ∈ detectPatterns hist ps now →
      p ∈ ps ∨ ∃ hr app apps, (hr, apps) ∈ slotGroups (lastN 100 hist) ∧
        mostFrequent apps = some app ∧ (1 : Rat) / 2 < freqRate apps app ∧
        p.id = timeAppId hr app := by
    intro hist ps now p hp
    rw [detectPatterns_eq_time] at hp
    exact mem_foldl_upsertTimeSlot _ now ps p hp
  set pid := timeAppId h A with hpid
  set P1 := freshTimePattern h A now1 with hP1
  have hP1id : P1.id = pid := rfl
  have hP2id : (reinforce now2 P1).id = pid := rfl
  have hfind0 : ps0.find? (fun q => q.id == pid) = none := by
    rw [List.find?_eq_none]
    intro x hx
    simpa using hfresh x hx
  have run1 : detectPatterns history ps0 now1 = ps0 ++ [P1] := by
    rw [detectPatterns_single_slot history ps0 now1 h A hgroups, hfind0]
    rfl
  have hfindP : ∀ (q : BehaviorPattern), q.id = pid →
      (ps0 ++ [q]).find? (fun r => r.id == pid) = some q := by
    intro q hq
    rw [List.find?_append, hfind0]
    simp [List.find?, hq]
  have run2 : detectPatterns history (detectPatterns history ps0 now1) now2 =
      ps0 ++ [reinforce now2 P1] := by
    rw [run1, detectPatterns_single_slot history _ now2 h A hgroups,
      hfindP P1 hP1id]
    simp only [Option.isSome_some, if_true]
    exact updFirst_append_singleton (fun x hx => hfresh x hx) hP1id
  have run3 : detectPatterns history
      (detectPatterns history (detectPatterns history ps0 now1) now2) now3 =
      ps0 ++ [reinforce now3 (reinforce now2 P1)] := by
    rw [run2, detectPatterns_single_slot history _ now3 h A hgroups,
      hfindP (reinforce now2 P1) hP2id]
    simp only [Option.isSome_some, if_true]
    exact updFirst_append_singleton (fun x hx => hfresh x hx) hP2id
  have hc2 : (reinforce now2 P1).confidence = 11 / 20 := by
    simp only [reinforce, hP1, freshTimePattern]
    rw [min_eq_left (by norm_num)]
    norm_num
  have hc3 : (reinforce now3 (reinforce now2 P1)).confidence = 121 / 200 := by
    show min ((reinforce now2 P1).confidence * (11 / 10)) 1 = 121 / 200
    rw [hc2, min_eq_left (by norm_num)]
    norm_num
  refine ⟨hgeneral, run1, run2, run3, rfl, rfl, rfl, rfl, hc2, hc3, by norm_num, by norm_num,
    by norm_num⟩

/-- Witness for C8: the concrete three-Chrome-actions history satisfies the
single-slot hypothesis with an empty initial pattern table. -/
theorem detectPatterns_time_slot_reinforcement_witness :
    slotGroups (lastN 100 chromeHistory) = [(0, ["Chrome", "Chrome", "Chrome"])] ∧
      (∀ p ∈ ([] : List BehaviorPattern), p.id ≠ timeAppId 0 "Chrome") ∧
      detectPatterns chromeHistory [] 1000 = [] ++ [freshTimePattern 0 "Chrome" 1000] ∧
      (reinforce 3000 (reinforce 2000 (freshTimePattern 0 "Chrome" 1000))).confidence =
        121 / 200 := by
  have hg : slotGroups (lastN 100 chromeHistory) = [(0, ["Chrome", "Chrome", "Chrome"])] := by
    decide
  have hf : ∀ p ∈ ([] : List BehaviorPattern), p.id ≠ timeAppId 0 "Chrome" := by simp
  obtain ⟨_, hrun1, _, _, _, _, _, _, _, hconf3, _⟩ :=
    detectPatterns_time_slot_reinforcement chromeHistory [] 0 "Chrome" 1000 2000 3000 hg hf
  exact ⟨hg, hf, hrun1, hconf3⟩


/-! ### `searchMemories`: characterizations and subset lemmas -/

/-- A cache-missing call unfolded. -/
theorem searchMemories_miss_eq (o : MathOracle) (q : String) (limit : Nat)
    (fil : Option Filters) (now : Int) (s : MemoryState)
    (hmiss : cacheGet (cleanCache now s.searchCache) (q, limit, fil) = none) :
    searchMemories o q limit fil now s =
      (((sortResults o now (sortByOf fil) (rawResults o q fil s)).take limit).map
          (bumpAccess now),
       { s with
         searchCache := cacheSet (cleanCache now s.searchCache) (q, limit, fil)
           { results := ((sortResults o now (sortByOf fil)
               (rawResults o q fil s)).take limit).map (bumpAccess now),
             timestamp := now } }) := by
  unfold searchMemories
  simp only [hmiss]

/-- A fresh cache hit returns the cached page and only prunes the cache. -/
theorem searchMemories_hit_eq (o : MathOracle) (q : String) (limit : Nat)
    (fil : Option Filters) (now : Int) (s : MemoryState) (e : CacheEntry)
    (hhit : cacheGet (cleanCache now s.searchCache) (q, limit, fil) = some e)
    (hfresh : now - e.timestamp < 300000) :
    searchMemories o q limit fil now s =
      (e.results, { s with searchCache := cleanCache now s.searchCache }) := by
  unfold searchMemories
  simp only [hhit]
  rw [if_pos hfresh]

/-- Filtering only discards records. -/
theorem mem_of_mem_applyFilters {fil : Option Filters} {ms : List Memory} {m : Memory}
    (hm : m ∈ applyFilters fil ms) : m ∈ ms := by
  rcases fil with _ | f
  · exact hm
  · unfold applyFilters at hm
    simp only at hm
    repeat
      first
      | exact hm
      | replace hm := List.mem_of_mem_filter hm
      | split at hm

/-- `performIndexedSearch` returns only records of its input list. -/
theorem mem_of_mem_performIndexedSearch {q : String} {ms : List Memory} {wi ti : Index}
    {m : Memory} (hm : m ∈ performIndexedSearch q ms wi ti) : m ∈ ms := by
  unfold performIndexedSearch at hm
  simp only at hm
  rcases List.mem_map.mp hm with ⟨p, hp, rfl⟩
  have hp2 := (List.mem_insertionSort _).mp hp
  have hp3 := (List.mem_filter.mp hp2).1
  rcases List.mem_map.mp hp3 with ⟨c, hc, rfl⟩
  rcases List.mem_filterMap.mp hc with ⟨id, _, hid⟩
  have := List.mem_of_find?_eq_some hid
  exact List.mem_reverse.mp this

/-- `performSemanticSearch` returns only records of its input list. -/
theorem mem_of_mem_performSemanticSearch {o : MathOracle} {q : String} {ms : List Memory}
    {m : Memory} (hm : m ∈ performSemanticSearch o q ms) : m ∈ ms := by
  unfold performSemanticSearch at hm
  simp only at hm
  rcases List.mem_map.mp hm with ⟨p, hp, rfl⟩
  have hp2 := (List.mem_filter.mp ((List.mem_insertionSort _).mp hp)).1
  rcases List.mem_map.mp hp2 with ⟨z, hz, rfl⟩
  exact (List.of_mem_zip hz).1

/-- The unsorted result list only holds stored records. -/
theorem mem_of_mem_rawResults {o : MathOracle} {q : String} {fil : Option Filters}
    {s : MemoryState} {m : Memory} (hm : m ∈ rawResults o q fil s) : m ∈ s.memories := by
  unfold rawResults at hm
  simp only at hm
  split at hm
  · exact mem_of_mem_applyFilters hm
  · split at hm
    · exact mem_of_mem_applyFilters (mem_of_mem_performSemanticSearch hm)
    · exact mem_of_mem_applyFilters (mem_of_mem_performIndexedSearch hm)

/-- The final sort only permutes. -/
theorem mem_sortResults {o : MathOracle} {now : Int} {sb : SortBy} {rs : List Memory}
    {m : Memory} : m ∈ sortResults o now sb rs ↔ m ∈ rs := by
  cases sb <;> exact List.mem_insertionSort _

/-- With unique ids, looking a stored record up by its own id finds it. -/
theorem find?_eq_some_self {ms : List Memory} (hnd : (ms.map Memory.id).Nodup) {m : Memory}
    (hm : m ∈ ms) : ms.find? (fun x => x.id == m.id) = some m := by
  induction ms with
  | nil => cases hm
  | cons a rest ih =>
    rw [List.map_cons, List.nodup_cons] at hnd
    rcases List.mem_cons.mp hm with rfl | hm2
    · simp [List.find?]
    · have hne : (a.id == m.id) = false := by
        simp only [beq_eq_false_iff_ne, ne_eq]
        intro he
        exact hnd.1 (he ▸ List.mem_map_of_mem Memory.id hm2)
      simp only [List.find?, hne]
      exact ih hnd.2 hm2

/-- The stored composite key of a stored record's id is that record's key. -/
theorem storedKey_eq {s : MemoryState} (hnd : (s.memories.map Memory.id).Nodup)
    {m : Memory} (hm : m ∈ s.memories) (key : Memory → Rat) :
    storedKey s key m.id = key m := by
  unfold storedKey
  rw [find?_eq_some_self hnd hm]

/-- Bumping preserves ids. -/
theorem map_id_map_bump (now : Int) (l : List Memory) :
    (l.map (bumpAccess now)).map Memory.id = l.map Memory.id := by
  induction l with
  | nil => rfl
  | cons a l ih => simp [ih, bumpAccess]

/-! ### C9: inverted date range yields the empty result -/

/-- An inverted date range filters every record out. -/
theorem applyFilters_bad_range (f : Filters) (ms : List Memory) (st en : Int)
    (hdr : f.dateRange = some (st, en)) (hbad : en < st) :
    applyFilters (some f) ms = [] := by
  unfold applyFilters
  have hnil : ∀ (l : List Memory),
      (l.filter (fun m => st ≤ m.createdAt && m.createdAt ≤ en)) = [] := by
    intro l
    rw [List.filter_eq_nil]
    intro m _
    simp only [Bool.and_eq_true, decide_eq_true_eq, not_and]
    intro h1 h2
    omega
  simp only [hdr]
  cases hmr : f.minRelevance with
  | none => simp only [hmr, hnil]
  | some r => simp only [hmr, hnil, List.filter_nil]

/-- Indexed search over no records returns no records. -/
theorem performIndexedSearch_nil (q : String) (wi ti : Index) :
    performIndexedSearch q [] wi ti = [] := by
  unfold performIndexedSearch
  simp only []
  have h : ∀ ids : List String, ids.filterMap (mapGet []) = [] := by
    intro ids
    rw [List.filterMap_eq_nil]
    intro a _
    rfl
  rw [h]
  rfl

/-- Semantic search over no records returns no records. -/
theorem performSemanticSearch_nil (o : MathOracle) (q : String) :
    performSemanticSearch o q [] = [] := rfl

/-- Sorting no records returns no records. -/
theorem sortResults_nil (o : MathOracle) (now : Int) (sb : SortBy) :
    sortResults o now sb [] = [] := by
  cases sb <;> rfl

/-- The unsorted result list of an inverted-date-range call is empty. -/
theorem rawResults_bad_range (o : MathOracle) (q : String) (f : Filters) (s : MemoryState)
    (st en : Int) (hdr : f.dateRange = some (st, en)) (hbad : en < st) :
    rawResults o q (some f) s = [] := by
  unfold rawResults
  rw [applyFilters_bad_range f _ st en hdr hbad]
  simp only []
  split
  · rfl
  · split
    · exact performSemanticSearch_nil o _
    · exact performIndexedSearch_nil _ _ _

/-- **C9** — A `searchMemories` call whose `dateRange` filter has
`start > end` returns the empty list (and, the model being total, raises no
error), whatever the query, the other filters and the store contents: no
record satisfies `createdAt ≥ start ∧ createdAt ≤ end`. -/
theorem searchMemories_bad_dateRange_empty (o : MathOracle) (q : String) (limit : Nat)
    (f : Filters) (now : Int) (s : MemoryState) (st en : Int)
    (hdr : f.dateRange = some (st, en)) (hbad : en < st)
    (hmiss : cacheGet (cleanCache now s.searchCache) (q, limit, some f) = none) :
    (searchMemories o q limit (some f) now s).1 = [] := by
  rw [searchMemories_miss_eq o q limit (some f) now s hmiss]
  simp only [rawResults_bad_range o q f s st en hdr hbad, sortResults_nil,
    List.take_nil, List.map_nil]

/-- Witness for C9: a concrete inverted-range call on the scenario store. -/
theorem searchMemories_bad_dateRange_empty_witness :
    badRangeFil.dateRange = some (5, 3) ∧ (3 : Int) < 5 ∧
      cacheGet (cleanCache 7 fixStore.searchCache) ("note", 10, some badRangeFil) = none ∧
      (searchMemories unitOracle "note" 10 (some badRangeFil) 7 fixStore).1 = [] := by
  refine ⟨rfl, by norm_num, rfl, ?_⟩
  exact searchMemories_bad_dateRange_empty unitOracle "note" 10 badRangeFil 7 fixStore 5 3
    rfl (by norm_num) rfl


/-! ### C5: access statistics are never persisted -/

/-- **C5** — code bug: the source does increment `accessCount` and refresh
`lastAccessed` on every record of a freshly computed page, but it mutates
only the transient copies obtained from the store's `get` and never writes
them back with `set("longTermMemory", ...)` — unlike every other mutating
method of the store — so the persistent memories are unchanged by every
`searchMemories` call, against the spec's "retrieval is not read-only".
The bump is visible only in the returned page (and the cached page
objects): on a cache-missing call every page record is the bumped copy of
a stored record whose stored statistics stay as they were. -/
theorem searchMemories_access_bump_not_persisted (o : MathOracle) (q : String)
    (limit : Nat) (fil : Option Filters) (now : Int) (s : MemoryState) :
    (searchMemories o q limit fil now s).2.memories = s.memories ∧
    (cacheGet (cleanCache now s.searchCache) (q, limit, fil) = none →
      ∀ m ∈ (searchMemories o q limit fil now s).1,
        ∃ m0 ∈ s.memories, m = bumpAccess now m0 ∧
          m.accessCount = m0.accessCount + 1 ∧ m.lastAccessed = now) := by
  constructor
  · unfold searchMemories
    simp only []
    cases hc : cacheGet (cleanCache now s.searchCache) (q, limit, fil) with
    | none => rfl
    | some e =>
      dsimp only
      by_cases hf : now - e.timestamp < 300000
      · rw [if_pos hf]
      · rw [if_neg hf]
  · intro hmiss m hm
    rw [searchMemories_miss_eq o q limit fil now s hmiss] at hm
    simp only at hm
    rcases List.mem_map.mp hm with ⟨m0, hm0, rfl⟩
    have hm1 : m0 ∈ sortResults o now (sortByOf fil) (rawResults o q fil s) :=
      (List.take_sublist _ _).subset hm0
    exact ⟨m0, mem_of_mem_rawResults (mem_sortResults.mp hm1), rfl, rfl, rfl⟩

/-- Witness for C5: the concrete cache-missing "budget" call leaves the two
stored records untouched while its page carries bumped copies. -/
theorem searchMemories_access_bump_not_persisted_witness :
    (searchMemories unitOracle "budget" 10 none 0 fixStore).2.memories
        = fixStore.memories ∧
      cacheGet (cleanCache 0 fixStore.searchCache) ("budget", 10, none) = none ∧
      ∀ m ∈ (searchMemories unitOracle "budget" 10 none 0 fixStore).1,
        ∃ m0 ∈ fixStore.memories, m = bumpAccess 0 m0 ∧
          m.accessCount = m0.accessCount + 1 ∧ m.lastAccessed = 0 :=
  ⟨(searchMemories_access_bump_not_persisted unitOracle "budget" 10 none 0 fixStore).1,
   rfl,
   (searchMemories_access_bump_not_persisted unitOracle "budget" 10 none 0 fixStore).2 rfl⟩


/-! ### C1: the ranking law -/

/-- The amended C1: on a call answered afresh, when `sortBy` resolves to
`relevance` the returned page is ordered by the stored records' composite
key `relevanceScore * (1 + accessCount*0.1) * exp(-daysSinceLastAccessed/30)`
descending — the base search score plays no part in the final order (it only
selects and pre-orders candidates); `sortBy = date` orders the page by
`updatedAt` descending and `sortBy = access` by `accessCount` descending. -/
theorem searchMemories_ranking_law (o : MathOracle) (q : String) (limit : Nat)
    (fil : Option Filters) (now : Int) (s : MemoryState)
    (hmiss : cacheGet (cleanCache now s.searchCache) (q, limit, fil) = none)
    (hids : (s.memories.map Memory.id).Nodup) :
    (sortByOf fil = SortBy.relevance →
      ((searchMemories o q limit fil now s).1.map Memory.id).Sorted
        (idKeyGe s (relSortKey o now))) ∧
    (sortByOf fil = SortBy.date →
      (searchMemories o q limit fil now s).1.Sorted updatedAtGe) ∧
    (sortByOf fil = SortBy.access →
      (searchMemories o q limit fil now s).1.Sorted accessCountGe) := by
  have hpage : (searchMemories o q limit fil now s).1 =
      ((sortResults o now (sortByOf fil) (rawResults o q fil s)).take limit).map
        (bumpAccess now) := by
    rw [searchMemories_miss_eq o q limit fil now s hmiss]
  refine ⟨?_, ?_, ?_⟩
  · intro hsb
    rw [hpage, map_id_map_bump]
    have hsorted : (sortResults o now (sortByOf fil) (rawResults o q fil s)).Sorted
        (relKeyGe o now) := by
      rw [hsb]
      exact List.sorted_insertionSort _ _
    have htake : ((sortResults o now (sortByOf fil) (rawResults o q fil s)).take
        limit).Sorted (relKeyGe o now) :=
      List.Pairwise.sublist (List.take_sublist _ _) hsorted
    show List.Pairwise _ (List.map Memory.id _)
    rw [List.pairwise_map]
    refine List.Pairwise.imp_of_mem ?_ htake
    intro a b ha hb hab
    have hma : a ∈ s.memories :=
      mem_of_mem_rawResults (mem_sortResults.mp ((List.take_sublist _ _).subset ha))
    have hmb : b ∈ s.memories :=
      mem_of_mem_rawResults (mem_sortResults.mp ((List.take_sublist _ _).subset hb))
    show storedKey s (relSortKey o now) b.id ≤ storedKey s (relSortKey o now) a.id
    rw [storedKey_eq hids hma, storedKey_eq hids hmb]
    exact hab
  · intro hsb
    rw [hpage]
    have hsorted : (sortResults o now (sortByOf fil) (rawResults o q fil s)).Sorted
        updatedAtGe := by
      rw [hsb]
      exact List.sorted_insertionSort _ _
    have htake : ((sortResults o now (sortByOf fil) (rawResults o q fil s)).take
        limit).Sorted updatedAtGe :=
      List.Pairwise.sublist (List.take_sublist _ _) hsorted
    show List.Pairwise _ (List.map (bumpAccess now) _)
    rw [List.pairwise_map]
    exact htake.imp (fun hab => hab)
  · intro hsb
    rw [hpage]
    have hsorted : (sortResults o now (sortByOf fil) (rawResults o q fil s)).Sorted
        accessCountGe := by
      rw [hsb]
      exact List.sorted_insertionSort _ _
    have htake : ((sortResults o now (sortByOf fil) (rawResults o q fil s)).take
        limit).Sorted accessCountGe :=
      List.Pairwise.sublist (List.take_sublist _ _) hsorted
    show List.Pairwise _ (List.map (bumpAccess now) _)
    rw [List.pairwise_map]
    exact htake.imp (fun hab => Nat.succ_le_succ hab)

/-- Witness for the amended C1: the concrete "budget" call satisfies the
hypotheses. -/
theorem searchMemories_ranking_law_witness :
    cacheGet (cleanCache 0 fixStore.searchCache) ("budget", 10, none) = none ∧
      (fixStore.memories.map Memory.id).Nodup ∧
      (sortByOf none = SortBy.relevance →
        ((searchMemories unitOracle "budget" 10 none 0 fixStore).1.map Memory.id).Sorted
          (idKeyGe fixStore (relSortKey unitOracle 0))) := by
  refine ⟨rfl, by decide, ?_⟩
  exact (searchMemories_ranking_law unitOracle "budget" 10 none 0 fixStore rfl (by decide)).1

/-- The page of the concrete "budget" call, by ids: B before A (the code
key of B is 1, of A is 1/2 — the base score 5 of A does not enter). -/
theorem fixSearch_page_ids :
    (searchMemories unitOracle "budget" 10 none 0 fixStore).1.map Memory.id = ["B", "A"] := by
  rw [searchMemories_miss_eq unitOracle "budget" 10 none 0 fixStore rfl]
  simp only []
  rw [map_id_map_bump]
  have e1 : rawResults unitOracle "budget" none fixStore = [entryA, entryB] := by rfl
  have hcmp : ¬ relKeyGe unitOracle 0 entryA entryB := by
    unfold relKeyGe relSortKey daysSince
    norm_num [unitOracle, entryA, entryB, mkEntry, fixA, fixB]
  have e2 : sortResults unitOracle 0 (sortByOf none)
      (rawResults unitOracle "budget" none fixStore) = [entryB, entryA] := by
    rw [e1]
    show List.insertionSort (relKeyGe unitOracle 0) [entryA, entryB] = [entryB, entryA]
    simp [List.insertionSort, List.orderedInsert, hcmp]
  rw [e2]
  rfl

/-- The claimed composite key of record A behind the concrete call. -/
theorem fixSearch_claimKey_A :
    storedKey fixStore (claimKeyLex unitOracle 0 (jsTrim (jsToLower "budget"))) "A"
      = 5 / 2 := by
  unfold storedKey
  rw [show fixStore.memories.find? (fun m => m.id == "A") = some entryA from rfl]
  show claimKeyLex unitOracle 0 (jsTrim (jsToLower "budget")) entryA = 5 / 2
  unfold claimKeyLex relSortKey daysSince
  rw [show lexScore (wordTokens (jsTrim (jsToLower "budget"))) entryA = 5 from by decide]
  norm_num [unitOracle, entryA, mkEntry, fixA]

/-- The claimed composite key of record B behind the concrete call. -/
theorem fixSearch_claimKey_B :
    storedKey fixStore (claimKeyLex unitOracle 0 (jsTrim (jsToLower "budget"))) "B"
      = 2 := by
  unfold storedKey
  rw [show fixStore.memories.find? (fun m => m.id == "B") = some entryB from rfl]
  show claimKeyLex unitOracle 0 (jsTrim (jsToLower "budget")) entryB = 2
  unfold claimKeyLex relSortKey daysSince
  rw [show lexScore (wordTokens (jsTrim (jsToLower "budget"))) entryB = 2 from by decide]
  norm_num [unitOracle, entryB, mkEntry, fixB]

/-- Counterexample to C1 as stated: on the concrete "budget" call the page
comes back ordered B, A although the claimed composite score (base score
included) of A is 5/2 and of B is 2 — so the returned order is not
descending in the claimed score.  The engine's final sort ignores the base
score. -/
theorem claimC1_false : ¬ClaimC1 := by
  intro hcl
  have h := (hcl unitOracle (by intro x; norm_num [unitOracle]) "budget" 10 none 0 fixStore
    rfl (by decide)).1 ⟨rfl, rfl⟩
  rw [fixSearch_page_ids] at h
  have h2 := (List.sorted_cons.mp h).1 "A" (List.mem_singleton_self "A")
  have h3 : storedKey fixStore (claimKeyLex unitOracle 0 (jsTrim (jsToLower "budget"))) "A"
      ≤ storedKey fixStore (claimKeyLex unitOracle 0 (jsTrim (jsToLower "budget"))) "B" := h2
  rw [fixSearch_claimKey_A, fixSearch_claimKey_B] at h3
  norm_num at h3


/-! ### C6: what the word index actually tokenizes -/

/-- The amended C6: the word index built by `addToSearchIndex` holds a
memory's id under a token exactly when that token is one of the ASCII word
tokens of the lower-cased `title + " " + content` (splitting on `/\W+/`
without the `u` flag, so word characters are `[A-Za-z0-9_]` only and CJK
characters act as separators), length > 1 — plus whatever the token already
held.  In particular a purely-CJK memory contributes no word-index entries. -/
theorem addToSearchIndex_ascii_tokens (m : Memory) (wi ti : Index) (w : String) :
    m.id ∈ idxLookup (addToSearchIndex m wi ti).1 w ↔
      m.id ∈ idxLookup wi w ∨ w ∈ memWords m := by
  show m.id ∈ idxLookup (addWordsToIndex (memWords m) m.id wi) w ↔ _
  rw [mem_idxLookup_addWords]
  simp

/-- Counterexample to C6 as stated: the memory titled "日本語" with content
"メモ帳" yields the CJK token "日本語" under the spec's Unicode-preserving
tokenizer, yet the index built for it is empty — the source regex `/\W+/`
(no `u` flag) treats every CJK character as a separator, so the memory is
unreachable by any word query. -/
theorem claimC6_false : ¬ClaimC6 := by
  intro hcl
  have h := hcl cjkMem [] [] "日本語" (by decide)
  have he : idxLookup (addToSearchIndex cjkMem [] []).1 "日本語" = [] := by decide
  rw [he] at h
  exact List.not_mem_nil _ h

/-! ### C7: similarity of identical contents -/

theorem list_union_eq_right {l l2 : List String} (h : ∀ a ∈ l, a ∈ l2) :
    l ∪ l2 = l2 := by
  induction l with
  | nil => rfl
  | cons a l ih =>
    show List.insert a (l ∪ l2) = l2
    rw [ih (fun b hb => h b (List.mem_cons_of_mem a hb))]
    exact List.insert_of_mem (h a (List.mem_cons_self a l))

theorem levenshtein_self : ∀ l : List Char, levenshtein l l = 0 := by
  intro l
  induction l with
  | nil => simp [levenshtein]
  | cons c l ih => rw [levenshtein, if_pos rfl]; exact ih

theorem textSimilarity_self (t : String) (hne : tokenize (jsToLower t) ≠ []) :
    textSimilarity t t = 1 := by
  unfold textSimilarity
  simp only []
  have hlen0 : ¬((tokenize (jsToLower t)).length = 0 ∨ (tokenize (jsToLower t)).length = 0) := by
    rw [or_self]
    exact fun h => hne (List.length_eq_zero.mp h)
  rw [if_neg hlen0]
  have hsub : (tokenize (jsToLower t)).dedup.filter
      (fun x => x ∈ (tokenize (jsToLower t)).dedup) = (tokenize (jsToLower t)).dedup :=
    List.filter_eq_self.mpr (fun a ha => decide_eq_true ha)
  have hunion : ((tokenize (jsToLower t)).dedup ++ (tokenize (jsToLower t)).dedup).dedup
      = (tokenize (jsToLower t)).dedup := by
    rw [List.dedup_append, List.dedup_idem]
    exact list_union_eq_right (fun a ha => ha)
  rw [hsub, hunion]
  obtain ⟨w0, hw0⟩ := List.exists_mem_of_ne_nil _ hne
  have hw0d : w0 ∈ (tokenize (jsToLower t)).dedup := List.mem_dedup.mpr hw0
  have hterm : 0 < relTf (tokenize (jsToLower t)) w0 * relTf (tokenize (jsToLower t)) w0 := by
    have hc : 0 < (tokenize (jsToLower t)).countP (fun x => x == w0) :=
      List.countP_pos.mpr ⟨w0, hw0, by simp⟩
    have hl : 0 < (tokenize (jsToLower t)).length := List.length_pos.mpr hne
    have hpos : 0 < relTf (tokenize (jsToLower t)) w0 :=
      div_pos (by exact_mod_cast hc) (by exact_mod_cast hl)
    exact mul_pos hpos hpos
  have hS : 0 < ((tokenize (jsToLower t)).dedup.map
      (fun w => relTf (tokenize (jsToLower t)) w * relTf (tokenize (jsToLower t)) w)).sum := by
    have hmem : relTf (tokenize (jsToLower t)) w0 * relTf (tokenize (jsToLower t)) w0 ∈
        (tokenize (jsToLower t)).dedup.map
          (fun w => relTf (tokenize (jsToLower t)) w * relTf (tokenize (jsToLower t)) w) :=
      List.mem_map_of_mem _ hw0d
    refine lt_of_lt_of_le hterm (List.single_le_sum (fun x hx => ?_) _ hmem)
    obtain ⟨w, hw, rfl⟩ := List.mem_map.mp hx
    exact mul_self_nonneg _
  have hmag : ¬(Real.sqrt ((tokenize (jsToLower t)).dedup.map
      (fun w => relTf (tokenize (jsToLower t)) w * relTf (tokenize (jsToLower t)) w)).sum = 0 ∨
      Real.sqrt ((tokenize (jsToLower t)).dedup.map
      (fun w => relTf (tokenize (jsToLower t)) w * relTf (tokenize (jsToLower t)) w)).sum = 0) := by
    rw [or_self]
    exact ne_of_gt (Real.sqrt_pos.mpr hS)
  rw [if_neg hmag, Real.mul_self_sqrt hS.le, div_self (ne_of_gt hS)]
  have hdata : t.data ≠ [] := by
    intro hd
    apply hne
    have ht : t = "" := by
      cases t with
      | mk d => exact congrArg String.mk hd
    rw [ht]
    rfl
  have htlen : 0 < max t.length t.length := by
    rw [max_self]
    exact List.length_pos.mpr hdata
  rw [if_pos htlen, levenshtein_self]
  have hded : ((tokenize (jsToLower t)).dedup.length : ℝ) ≠ 0 := by
    have : (tokenize (jsToLower t)).dedup ≠ [] := by
      rw [ne_eq, List.dedup_eq_nil]
      exact hne
    exact_mod_cast fun h => this (List.length_eq_zero.mp (by exact_mod_cast h))
  rw [div_self hded]
  norm_num

theorem mem_findDuplicateMemories {ms : List Memory} {m1 m2 : Memory}
    (hp : (m1, m2) ∈ memoryPairs ms)
    (hsim : (0.75 : ℝ) < textSimilarity m1.content m2.content) :
    ({ memory1 := m1.id, memory2 := m2.id,
       similarity := textSimilarity m1.content m2.content,
       suggestedAction := determineMergeAction m1 m2
         (textSimilarity m1.content m2.content) } : DupPair)
      ∈ findDuplicateMemories ms := by
  unfold findDuplicateMemories
  simp only []
  rw [(List.perm_insertionSort _ _).mem_iff]
  refine List.mem_filterMap.mpr ⟨(m1, m2), hp, ?_⟩
  simp only []
  rw [if_pos hsim]

/-- The amended C7: two scanned memories with identical content are
reported with similarity exactly 1 and suggested action merge — provided
their content has at least one token (length > 1 after sanitizing).  Token-
free identical contents score 0 and are not reported at all. -/
theorem findDuplicateMemories_identical_content (ms : List Memory) (m1 m2 : Memory)
    (hp : (m1, m2) ∈ memoryPairs ms) (hc : m1.content = m2.content)
    (hne : tokenize (jsToLower m1.content) ≠ []) :
    ∃ d ∈ findDuplicateMemories ms, d.memory1 = m1.id ∧ d.memory2 = m2.id ∧
      d.similarity = 1 ∧ d.suggestedAction = MergeAction.merge := by
  have hsim : textSimilarity m1.content m2.content = 1 := by
    rw [← hc]
    exact textSimilarity_self _ hne
  have hact : determineMergeAction m1 m2 (textSimilarity m1.content m2.content)
      = MergeAction.merge := by
    rw [hsim]
    unfold determineMergeAction
    rw [if_pos (by norm_num)]
  exact ⟨_, mem_findDuplicateMemories hp (by rw [hsim]; norm_num), rfl, rfl, hsim, hact⟩

/-- Witness for the amended C7: the pair with content "hello world". -/
theorem findDuplicateMemories_identical_content_witness :
    (dupR, dupS) ∈ memoryPairs [dupR, dupS] ∧ dupR.content = dupS.content ∧
      tokenize (jsToLower dupR.content) ≠ [] ∧
      ∃ d ∈ findDuplicateMemories [dupR, dupS], d.memory1 = dupR.id ∧ d.memory2 = dupS.id ∧
        d.similarity = 1 ∧ d.suggestedAction = MergeAction.merge :=
  ⟨by simp [memoryPairs], rfl, by decide,
    findDuplicateMemories_identical_content [dupR, dupS] dupR dupS
      (by simp [memoryPairs]) rfl (by decide)⟩

theorem textSimilarity_dupP_dupQ : textSimilarity dupP.content dupQ.content = 0 := by
  have htok : tokenize (jsToLower "a") = [] := by decide
  show textSimilarity "a" "a" = 0
  unfold textSimilarity
  simp only []
  rw [htok]
  simp

/-- Counterexample to C7 as stated: the memories "P" and "Q" share the
content "a", but `tokenize` drops length-1 tokens, so both token lists are
empty, the similarity is defined to be 0, the 0.75 gate fails, and
`findDuplicateMemories` reports nothing at all. -/
theorem claimC7_false : ¬ClaimC7 := by
  intro hcl
  obtain ⟨d, hd, _⟩ := hcl [dupP, dupQ] dupP dupQ (by simp [memoryPairs]) rfl
  have hfd : findDuplicateMemories [dupP, dupQ] = [] := by
    unfold findDuplicateMemories
    have hmp : memoryPairs [dupP, dupQ] = [(dupP, dupQ)] := by simp [memoryPairs]
    rw [hmp]
    have hnot : ¬ (0.75 : ℝ) < textSimilarity dupP.content dupQ.content := by
      rw [textSimilarity_dupP_dupQ]
      norm_num
    simp [List.filterMap, hnot]
  rw [hfd] at hd
  exact List.not_mem_nil d hd

end OpenClue
